import Mathlib

/-
Shallow embedding of the mineswapper core (src/grid.rs, src/neighbor_iter.rs,
src/search.rs, src/solver.rs, src/minefield.rs).

Conventions of the embedding:
* Machine integers (u8/u16) are modelled as Nat; the only places where u16
  arithmetic can underflow in the source (debug-mode panics on `-= 1`) are
  modelled as explicit checks returning `none`.
* Rust panics / failed `assert!` are modelled by `Option`: a function returns
  `none` exactly when the source code panics.
* Unbounded loops of the source are modelled with an explicit fuel parameter;
  `none` on fuel exhaustion.  Theorems are stated for runs that return `some`.
* The iteration order of Rust's `HashMap`/`HashSet` is unspecified and varies
  between process runs.  Where the order is observable (the `mine_counts`
  key iteration in `find_acomodating_solution`) it is passed in explicitly as
  a `keyOrders` parameter; where a deterministic stand-in is harmless
  (association lists in insertion order) that is used and noted.
* The injected random generator (`rand::Rng`) is modelled as a stream of
  naturals (`List Nat`, with `0` once exhausted); `choose` consumes one value
  and picks `v % len`, `shuffle` is the Fisher-Yates loop of `rand`.
-/

set_option autoImplicit false

namespace Mineswapper

/-- Cell states of the constraint propagator (solver.rs `CellState`). -/
inductive CellState where
  | UnknownUnconstrained
  | UnknownConstrained
  | Mine
  | Empty
  | Clue (n : Nat)
deriving DecidableEq

/-- Aggregate counters of the solver grid (solver.rs `Counters`). -/
structure Counters where
  unconstrained_cells : Nat
  hidden_mines : Nat
deriving DecidableEq

/-- Change hook of the solver counters (solver.rs `Counters::notify_change`).
`none` models the debug-mode underflow panic of `-= 1` and the explicit
panic on setting a cell back to `UnknownUnconstrained`.  Note the source
returns early when the old state is `Mine`, skipping the checks on the new
value. -/
def Counters.notify_change (cnt : Counters) (fromS toS : CellState) : Option Counters :=
  match fromS with
  | CellState.Mine => some cnt
  | _ =>
    let step1 : Option Counters :=
      match fromS with
      | CellState.UnknownUnconstrained =>
        if cnt.unconstrained_cells = 0 then none
        else some { cnt with unconstrained_cells := cnt.unconstrained_cells - 1 }
      | _ => some cnt
    step1.bind fun c1 =>
      match toS with
      | CellState.Mine =>
        if c1.hidden_mines = 0 then none
        else some { c1 with hidden_mines := c1.hidden_mines - 1 }
      | CellState.UnknownUnconstrained => none
      | _ => some c1

/-- The generic bounded grid (grid.rs `Grid`), with counters `C` and cells
`α`.  `data` is the row-major cell vector. -/
structure Grid (α : Type) (C : Type) where
  counters : C
  data : List α
  w : Nat
  h : Nat
deriving DecidableEq

/-- Bounds-checked read (grid.rs `Grid::get`); `none` models the failed
assertion on out-of-range coordinates. -/
def Grid.get {α C : Type} (g : Grid α C) (row col : Nat) : Option α :=
  if row < g.h ∧ col < g.w then g.data.get? (row * g.w + col) else none

/-- Bounds-checked write (grid.rs `Grid::set`): the change hook is invoked
with the old and the new value before the write is committed. -/
def Grid.set {α C : Type} (notify : C → α → α → Option C) (g : Grid α C)
    (row col : Nat) (v : α) : Option (Grid α C) :=
  (g.get row col).bind fun old =>
    (notify g.counters old v).map fun cnt =>
      { g with counters := cnt, data := g.data.set (row * g.w + col) v }

/-- One step of the row iterator loop (grid.rs `RowsIter::next`): the slice
`data[idx..idx+w]` is yielded only while `idx + w` is strictly below
`data.len()` (the source uses `>=`, so the final row is never yielded).
Fuel bounds the loop; `h + 1` steps always suffice for `w ≥ 1`. -/
def rowsGo {α : Type} (w : Nat) (data : List α) : Nat → Nat → List (List α)
  | 0, _ => []
  | fuel + 1, idx =>
    let next := idx + w
    if data.length ≤ next then []
    else ((data.drop idx).take w) :: rowsGo w data fuel next

/-- Iteration over rows (grid.rs `Grid::rows`). -/
def Grid.rows {α C : Type} (g : Grid α C) : List (List α) :=
  rowsGo g.w g.data (g.h + 1) 0

/-- The eight king-move offsets (neighbor_iter.rs `DELTAS`), in source
order. -/
def neighborDeltas : List (Int × Int) :=
  [(-1, -1), (-1, 0), (-1, 1), (0, -1), (0, 1), (1, -1), (1, 0), (1, 1)]

/-- Neighbor enumeration clipped to the board (neighbor_iter.rs
`NeighborIter`). -/
def neighborsOf (w h row col : Nat) : List (Nat × Nat) :=
  neighborDeltas.filterMap fun d =>
    let nr : Int := d.1 + (row : Int)
    let nc : Int := d.2 + (col : Int)
    if 0 ≤ nr ∧ nr < (h : Int) ∧ 0 ≤ nc ∧ nc < (w : Int) then
      some (nr.toNat, nc.toNat)
    else none

/-! ## The component search (search.rs) -/

/-- A clue of a component topology (search.rs `Clue`). -/
structure SClue where
  mine_count : Nat
  adjacency : List Nat
deriving DecidableEq

/-- A component topology (search.rs `Topology`). -/
structure Topology where
  unknown_count : Nat
  clues : List SClue
deriving DecidableEq

/-- Number of assigned-mine members of `adj` under the partial assignment
`sol` (`sol.get(i) = Some(true)` in the source; indices beyond the prefix
count as not-mine). -/
def minesAssigned (sol : List Bool) (adj : List Nat) : Nat :=
  (adj.filter fun i => sol.getD i false).length

/-- Number of still-unassigned members of `adj` under the partial
assignment `sol` (`sol.get(i) = None` in the source). -/
def unassignedCount (sol : List Bool) (adj : List Nat) : Nat :=
  (adj.filter fun i => decide (sol.length ≤ i)).length

/-- Feasibility of one clue against a partial assignment: the loop of
search.rs `is_last_possible` exits `false` as soon as the running mine
count exceeds the owed count, or at the end when the owed count is
unreachable; that is equivalent to the two final comparisons below. -/
def clueOk (sol : List Bool) (c : SClue) : Bool :=
  decide (minesAssigned sol c.adjacency ≤ c.mine_count) &&
  decide (c.mine_count ≤ minesAssigned sol c.adjacency + unassignedCount sol c.adjacency)

/-- search.rs `is_last_possible`. -/
def isLastPossible (t : Topology) (toClues : List Nat) (sol : List Bool) : Bool :=
  toClues.all fun ci => clueOk sol (t.clues.getD ci ⟨0, []⟩)

/-- Record clue index `ci` under unknown `u` in the reverse map.  An
out-of-range `u` panics in the source (`unknowns_to_clues[*unknown]`); the
theorems below only consider in-range topologies, where `List.set` always
hits. -/
def u2cInsert (l : List (List Nat)) (u ci : Nat) : List (List Nat) :=
  l.set u ((l.getD u []) ++ [ci])

/-- The reverse map from unknowns to the clues constraining them
(search.rs `find_solutions`, first block). -/
def unknownsToClues (t : Topology) : List (List Nat) :=
  t.clues.enum.foldl
    (fun acc p => p.2.adjacency.foldl (fun a u => u2cInsert a u p.1) acc)
    (List.replicate t.unknown_count [])

/-- Both one-bit extensions of `sol` that remain feasible, false first
(search.rs `find_solutions`, loop body). -/
def searchChildren (t : Topology) (u2c : List (List Nat)) (sol : List Bool) :
    List (List Bool) :=
  (if isLastPossible t (u2c.getD sol.length []) (sol ++ [false]) then [sol ++ [false]] else []) ++
  (if isLastPossible t (u2c.getD sol.length []) (sol ++ [true]) then [sol ++ [true]] else [])

/-- The breadth-first queue loop of search.rs `find_solutions`: pop the
front; once a complete assignment reaches the front the queue holds only
complete assignments and is returned whole. -/
def findSolutionsLoop (t : Topology) (u2c : List (List Nat)) :
    Nat → List (List Bool) → Option (List (List Bool))
  | 0, _ => none
  | _ + 1, [] => some []
  | fuel + 1, sol :: rest =>
    if t.unknown_count ≤ sol.length then some (sol :: rest)
    else findSolutionsLoop t u2c fuel (rest ++ searchChildren t u2c sol)

/-- search.rs `find_solutions`. -/
def find_solutions (fuel : Nat) (t : Topology) : Option (List (List Bool)) :=
  findSolutionsLoop t (unknownsToClues t) fuel [[]]

/-- Exact satisfaction of every clue by a complete assignment (the
round-trip property of the spec). -/
def satisfiesAll (t : Topology) (sol : List Bool) : Bool :=
  t.clues.all fun c => decide (minesAssigned sol c.adjacency = c.mine_count)

/-! ## The constraint propagator (solver.rs `PartialSolution`) -/

/-- The solver grid instantiation. -/
abbrev SGrid := Grid CellState Counters

/-- Grid write with the solver counter hook (the only write path of the
solver grid). -/
def SGrid.sset (g : SGrid) (row col : Nat) (v : CellState) : Option SGrid :=
  Grid.set Counters.notify_change g row col v

/-- A solved component (solver.rs `GraphSolution`): the map from cells to
dense indices is kept as an association list in insertion order (the
source uses a `HashMap`; only lookup and enumeration are performed on it,
and no result below depends on its enumeration order). -/
structure GraphSolution where
  tile_map : List ((Nat × Nat) × Nat)
  alternatives : List (List Bool)
deriving DecidableEq

/-- solver.rs `PartialSolution`. -/
structure PartialSolution where
  grid : SGrid
  graphs_solutions : List GraphSolution
deriving DecidableEq

/-- solver.rs `PartialSolution::new`. -/
def PartialSolution.new (width height mine_count : Nat) : PartialSolution :=
  { grid :=
      { counters := { unconstrained_cells := width * height, hidden_mines := mine_count }
        data := List.replicate (width * height) CellState.UnknownUnconstrained
        w := width
        h := height }
    graphs_solutions := [] }

/-- solver.rs `UpdateAction`. -/
inductive UpdateAction where
  | CheckIfClueFindMines
  | ToMine
  | CheckIfClueFindEmpties
  | ToEmpty
deriving DecidableEq

/-- The de-duplicating enqueue (`try_enqueue` in
`breadth_first_update`): a key already scheduled (for any action) is not
scheduled again. -/
def tryEnqueue (iq : List (Nat × Nat)) (q : List ((Nat × Nat) × UpdateAction))
    (k : Nat × Nat) (a : UpdateAction) :
    List (Nat × Nat) × List ((Nat × Nat) × UpdateAction) :=
  if k ∈ iq then (iq, q) else (k :: iq, q ++ [(k, a)])

/-- Neighbor scan of `CheckIfClueFindMines`: collect the constrained
unknowns; an `UnknownUnconstrained` neighbor is the panic
`Can't have unconstrained next to a clue!`. -/
def collectConstrainedNbrs (g : SGrid) : List (Nat × Nat) → Option (List (Nat × Nat))
  | [] => some []
  | p :: rest =>
    match g.get p.1 p.2 with
    | some CellState.UnknownConstrained =>
      (collectConstrainedNbrs g rest).map fun l => p :: l
    | some CellState.UnknownUnconstrained => none
    | some _ => collectConstrainedNbrs g rest
    | none => none

/-- Enqueue every listed cell for `a` via `tryEnqueue`, in order. -/
def enqueueAll (a : UpdateAction) :
    List (Nat × Nat) × List ((Nat × Nat) × UpdateAction) → List (Nat × Nat) →
    List (Nat × Nat) × List ((Nat × Nat) × UpdateAction)
  | st, [] => st
  | (iq, q), k :: rest => enqueueAll a (tryEnqueue iq q k a) rest

/-- Neighbor loop of `ToMine`: every positive clue neighbor is
decremented; a clue reaching zero is scheduled `CheckIfClueFindEmpties`
with the asserting insert (`assert!(is_queued.insert(..))` — `none` if the
cell is already scheduled). -/
def toMineNbrs (g : SGrid) (iq : List (Nat × Nat))
    (q : List ((Nat × Nat) × UpdateAction)) :
    List (Nat × Nat) → Option (SGrid × List (Nat × Nat) × List ((Nat × Nat) × UpdateAction))
  | [] => some (g, iq, q)
  | p :: rest =>
    match g.get p.1 p.2 with
    | some (CellState.Clue v) =>
      if 0 < v then
        let v1 := v - 1
        let step : Option (List (Nat × Nat) × List ((Nat × Nat) × UpdateAction)) :=
          if v1 = 0 then
            if p ∈ iq then none
            else some (p :: iq, q ++ [(p, UpdateAction.CheckIfClueFindEmpties)])
          else some (iq, q)
        step.bind fun st =>
          (g.sset p.1 p.2 (CellState.Clue v1)).bind fun g1 =>
            toMineNbrs g1 st.1 st.2 rest
      else toMineNbrs g iq q rest
    | some _ => toMineNbrs g iq q rest
    | none => none

/-- Neighbor loop of `CheckIfClueFindEmpties`: constrained neighbors are
scheduled `ToEmpty`; an unconstrained neighbor is a panic. -/
def checkEmptiesNbrs (g : SGrid) :
    List (Nat × Nat) × List ((Nat × Nat) × UpdateAction) → List (Nat × Nat) →
    Option (List (Nat × Nat) × List ((Nat × Nat) × UpdateAction))
  | st, [] => some st
  | (iq, q), p :: rest =>
    match g.get p.1 p.2 with
    | some CellState.UnknownConstrained =>
      checkEmptiesNbrs g (tryEnqueue iq q p UpdateAction.ToEmpty) rest
    | some CellState.UnknownUnconstrained => none
    | some _ => checkEmptiesNbrs g (iq, q) rest
    | none => none

/-- Neighbor loop of `ToEmpty`: every positive clue neighbor is scheduled
`CheckIfClueFindMines`. -/
def toEmptyNbrs (g : SGrid) :
    List (Nat × Nat) × List ((Nat × Nat) × UpdateAction) → List (Nat × Nat) →
    Option (List (Nat × Nat) × List ((Nat × Nat) × UpdateAction))
  | st, [] => some st
  | (iq, q), p :: rest =>
    match g.get p.1 p.2 with
    | some (CellState.Clue v) =>
      if 0 < v then toEmptyNbrs g (tryEnqueue iq q p UpdateAction.CheckIfClueFindMines) rest
      else toEmptyNbrs g (iq, q) rest
    | some _ => toEmptyNbrs g (iq, q) rest
    | none => none

/-- Processing of one dequeued `(cell, action)` of
`breadth_first_update` (solver.rs lines 193-285).  `q` is the remaining
queue and `iq` the de-dup set with the popped key already removed. -/
def bfsStep (g : SGrid) (p : Nat × Nat) (a : UpdateAction)
    (q : List ((Nat × Nat) × UpdateAction)) (iq : List (Nat × Nat)) :
    Option (SGrid × List ((Nat × Nat) × UpdateAction) × List (Nat × Nat)) :=
  match a with
  | UpdateAction.CheckIfClueFindMines => do
    let clue ← match g.get p.1 p.2 with
      | some (CellState.Clue v) => some v
      | _ => none
    let unknowns ← collectConstrainedNbrs g (neighborsOf g.w g.h p.1 p.2)
    if unknowns.length < clue then none
    else if unknowns.length = clue then do
      let g1 ← g.sset p.1 p.2 (CellState.Clue 0)
      let st := enqueueAll UpdateAction.ToMine (iq, q) unknowns
      pure (g1, st.2, st.1)
    else pure (g, q, iq)
  | UpdateAction.ToMine => do
    match g.get p.1 p.2 with
      | some CellState.UnknownConstrained => pure ()
      | _ => none
    let g1 ← g.sset p.1 p.2 CellState.Mine
    let r ← toMineNbrs g1 iq q (neighborsOf g1.w g1.h p.1 p.2)
    pure (r.1, r.2.2, r.2.1)
  | UpdateAction.CheckIfClueFindEmpties => do
    match g.get p.1 p.2 with
      | some (CellState.Clue 0) => pure ()
      | _ => none
    let st ← checkEmptiesNbrs g (iq, q) (neighborsOf g.w g.h p.1 p.2)
    pure (g, st.2, st.1)
  | UpdateAction.ToEmpty => do
    match g.get p.1 p.2 with
      | some CellState.UnknownConstrained => pure ()
      | _ => none
    let g1 ← g.sset p.1 p.2 CellState.Empty
    let st ← toEmptyNbrs g1 (iq, q) (neighborsOf g1.w g1.h p.1 p.2)
    pure (g1, st.2, st.1)

/-- The worklist loop of `breadth_first_update`; fuel bounds the number of
dequeues. -/
def bfsRun : Nat → SGrid → List ((Nat × Nat) × UpdateAction) → List (Nat × Nat) →
    Option SGrid
  | 0, _, _, _ => none
  | _ + 1, g, [], _ => some g
  | fuel + 1, g, (p, a) :: rest, iq =>
    (bfsStep g p a rest (iq.erase p)).bind fun r => bfsRun fuel r.1 r.2.1 r.2.2

/-- solver.rs `PartialSolution::breadth_first_update`: the seeds are
de-duplicated into the queue (the source collects them through a
`HashSet`, whose iteration order is unspecified; `List.dedup` is the
deterministic stand-in — no theorem below depends on the seed order). -/
def breadth_first_update (fuel : Nat) (g : SGrid) (a : UpdateAction)
    (seed : List (Nat × Nat)) : Option SGrid :=
  bfsRun fuel g (seed.dedup.map fun k => (k, a)) seed.dedup

/-- The initial re-classification of `add_clue` (solver.rs lines 134-143):
adding a clue on a constrained cell first runs the `ToEmpty` propagation
seeded there; a revealed or mined cell is a panic. -/
def addCluePre (fuel : Nat) (s : PartialSolution) (cell : Nat × Nat) :
    Option PartialSolution :=
  match s.grid.get cell.1 cell.2 with
  | some (CellState.Clue _) => none
  | some CellState.Mine => none
  | some CellState.UnknownConstrained =>
    (breadth_first_update fuel s.grid UpdateAction.ToEmpty [cell]).map fun g =>
      { s with grid := g }
  | some _ => some s
  | none => none

/-- The neighbor scan of `add_clue` (solver.rs lines 145-163): promote
unconstrained neighbors, collect the open neighbors in order and count the
known mines (the source decrements the working clue per mine; underflow
there is equivalent to the final `raw < mines` check in `add_clue`
below). -/
def addClueScanGo (g : SGrid) : List (Nat × Nat) → Option (SGrid × List (Nat × Nat) × Nat)
  | [] => some (g, [], 0)
  | p :: rest =>
    match g.get p.1 p.2 with
    | some CellState.UnknownUnconstrained =>
      (g.sset p.1 p.2 CellState.UnknownConstrained).bind fun g1 =>
        (addClueScanGo g1 rest).map fun r => (r.1, p :: r.2.1, r.2.2)
    | some CellState.UnknownConstrained =>
      (addClueScanGo g rest).map fun r => (r.1, p :: r.2.1, r.2.2)
    | some CellState.Mine =>
      (addClueScanGo g rest).map fun r => (r.1, r.2.1, r.2.2 + 1)
    | some CellState.Empty => addClueScanGo g rest
    | some (CellState.Clue _) => addClueScanGo g rest
    | none => none

/-- Neighbor scan of `add_clue` on the cell's own neighborhood. -/
def addClueScan (s : PartialSolution) (cell : Nat × Nat) :
    Option (PartialSolution × List (Nat × Nat) × Nat) :=
  (addClueScanGo s.grid (neighborsOf s.grid.w s.grid.h cell.1 cell.2)).map fun r =>
    ({ s with grid := r.1 }, r.2.1, r.2.2)

/-- solver.rs `PartialSolution::add_clue`. -/
def add_clue (fuel : Nat) (s : PartialSolution) (cell : Nat × Nat) (raw : Nat) :
    Option PartialSolution :=
  (addCluePre fuel s cell).bind fun s1 =>
    (addClueScan s1 cell).bind fun r =>
      let s2 := r.1
      let unknowns := r.2.1
      let m := r.2.2
      if raw < m then none
      else
        let clue := raw - m
        (s2.grid.sset cell.1 cell.2 (CellState.Clue clue)).bind fun g3 =>
          let s3 : PartialSolution := { s2 with grid := g3 }
          if unknowns.length ≠ 0 then
            if clue = 0 then
              (breadth_first_update fuel s3.grid UpdateAction.ToEmpty unknowns).map fun g =>
                { s3 with grid := g }
            else if clue = unknowns.length then
              (breadth_first_update fuel s3.grid UpdateAction.ToMine unknowns).map fun g =>
                { s3 with grid := g }
            else some s3
          else some s3

/-! ## The reconciliation engine (solver.rs `find_acomodating_solution`) -/

/-- The random generator model: a stream of naturals, `0` once
exhausted. -/
def rngNext : List Nat → Nat × List Nat
  | [] => (0, [])
  | v :: r => (v, r)

/-- rand's `SliceRandom::choose`: `none` on an empty slice (without
consuming the generator), otherwise one draw selects the index. -/
def chooseFrom {α : Type} (l : List α) (rng : List Nat) : Option α × List Nat :=
  if l.isEmpty then (none, rng)
  else
    let r := rngNext rng
    (l.get? (r.1 % l.length), r.2)

/-- Swap two positions of a list (no-op when either is out of range, which
never happens in the shuffle below). -/
def listSwap {α : Type} (l : List α) (i j : Nat) : List α :=
  match l.get? i, l.get? j with
  | some a, some b => (l.set i b).set j a
  | _, _ => l

/-- The Fisher-Yates loop of rand's `SliceRandom::shuffle`: for the
current index `i+1` down to `1`, draw `j ≤ i+1` and swap. -/
def shuffleAux {α : Type} : List α → List Nat → Nat → List α × List Nat
  | l, rng, 0 => (l, rng)
  | l, rng, i + 1 =>
    let r := rngNext rng
    shuffleAux (listSwap l (i + 1) (r.1 % (i + 2))) r.2 i

/-- rand's `SliceRandom::shuffle` on a list. -/
def shuffleList {α : Type} (l : List α) (rng : List Nat) : List α × List Nat :=
  shuffleAux l rng (l.length - 1)

/-- First value bound to `k` in an association list. -/
def assocFind {α : Type} (l : List ((Nat × Nat) × α)) (k : Nat × Nat) : Option α :=
  (l.find? fun p => p.1 = k).map fun p => p.2

/-- Step 1 of `find_acomodating_solution` on one constrained target cell
(solver.rs lines 406-422): the first component containing the cell drops
every alternative placing a mine there; an emptied alternative set is the
early `return false`.  `none` models the `alt[idx]` index panic. -/
def faRetainGraphs (key : Nat × Nat) : List GraphSolution → Option (List GraphSolution × Bool)
  | [] => some ([], true)
  | gs :: rest =>
    match assocFind gs.tile_map key with
    | some idx =>
      if gs.alternatives.all fun alt => idx < alt.length then
        let alts := gs.alternatives.filter fun alt => !alt.getD idx false
        some (⟨gs.tile_map, alts⟩ :: rest, !alts.isEmpty)
      else none
    | none => (faRetainGraphs key rest).map fun r => (gs :: r.1, r.2)

/-- The per-target loop of step 1 (solver.rs lines 403-433): constrained
targets prune their component, unconstrained targets are set `Empty` and
recorded, a `Mine` target is the early `return false`, a revealed target
is a panic.  The returned Bool is `false` exactly on the early
returns. -/
def faStep1 : PartialSolution → List (Nat × Nat) → List (Nat × Nat) →
    Option (PartialSolution × List (Nat × Nat) × Bool)
  | ps, [], acc => some (ps, acc, true)
  | ps, key :: rest, acc =>
    match ps.grid.get key.1 key.2 with
    | some CellState.UnknownConstrained =>
      (faRetainGraphs key ps.graphs_solutions).bind fun r =>
        let ps1 : PartialSolution := { ps with graphs_solutions := r.1 }
        if r.2 then faStep1 ps1 rest acc else some (ps1, acc, false)
    | some CellState.UnknownUnconstrained =>
      (ps.grid.sset key.1 key.2 CellState.Empty).bind fun g =>
        faStep1 { ps with grid := g } rest (acc ++ [key])
    | some CellState.Mine => some (ps, acc, false)
    | some (CellState.Clue _) => none
    | some CellState.Empty => faStep1 ps rest acc
    | none => none

/-- Append an alternative under its mine count (the
`counts.entry(count).or_default().push(alt)` of solver.rs lines 440-444,
kept as an association list in insertion order). -/
def countsInsert (l : List (Nat × List (List Bool))) (k : Nat) (alt : List Bool) :
    List (Nat × List (List Bool)) :=
  match l with
  | [] => [(k, [alt])]
  | (k1, alts) :: rest =>
    if k1 = k then (k1, alts ++ [alt]) :: rest else (k1, alts) :: countsInsert rest k alt

/-- Alternatives of one component bucketed by total mine count. -/
def mineCountsOf (gs : GraphSolution) : List (Nat × List (List Bool)) :=
  gs.alternatives.foldl (fun acc alt => countsInsert acc (alt.count true) alt) []

/-- Per-component mine-count buckets (solver.rs lines 436-447). -/
def faMineCounts (graphs : List GraphSolution) : List (List (Nat × List (List Bool))) :=
  graphs.map mineCountsOf

/-- The odometer order of solver.rs `CartesianProduct` (first coordinate
fastest), for component key lists that are all non-empty. -/
def cpGo {α : Type} : List (List α) → List (List α)
  | [] => [[]]
  | b :: rest => (cpGo rest).flatMap fun combo => b.map fun x => x :: combo

/-- solver.rs `CartesianProduct`: an empty basis yields nothing (the
`curr.len() == 0` early `None`); a basis containing an empty component
panics on the first `next()` (`basis[i][0]` out of range). -/
def cartesianProduct {α : Type} (basis : List (List α)) : Option (List (List α)) :=
  if basis.isEmpty then some []
  else if basis.any List.isEmpty then none
  else some (cpGo basis)

/-- The budget/capacity filter of step 3 (solver.rs lines 450-467): keep a
combination iff its total fits the remaining hidden-mine budget and the
leftover budget fits the unconstrained free pool. -/
def faCombFilter (cnt : Counters) (comb : List Nat) : Bool :=
  decide (comb.sum ≤ cnt.hidden_mines) &&
  decide (cnt.hidden_mines - comb.sum ≤ cnt.unconstrained_cells)

/-- The surviving combinations of steps 2-3 (solver.rs lines 449-468),
with `keyOrders` the iteration order of each component's `HashMap` keys
(unspecified in the source and passed explicitly here). -/
def faSurviving (cnt : Counters) (keyOrders : List (List Nat)) :
    Option (List (List Nat)) :=
  (cartesianProduct keyOrders).map fun l => l.filter (faCombFilter cnt)

/-- Commit every `(cell, is_mine)` pair of a chosen alternative
(solver.rs lines 490-492); `none` models the `sol[idx]` index panic. -/
def commitGraphTiles {σ : Type} (commit : σ → Nat → Nat → Bool → Option σ)
    (gs : GraphSolution) (sol : List Bool) (st : σ) : Option σ :=
  gs.tile_map.foldlM
    (fun s p => (sol.get? p.2).bind fun b => commit s p.1.1 p.1.2 b) st

/-- Apply a chosen combination, one component at a time (solver.rs lines
478-493): accumulate the replaced mine total, pick one alternative of the
chosen count uniformly, commit its tiles. -/
def faApplyCombo {σ : Type} (commit : σ → Nat → Nat → Bool → Option σ) :
    List (Nat × List (Nat × List (List Bool)) × GraphSolution) → Nat → σ → List Nat →
    Option (Nat × σ × List Nat)
  | [], repl, st, rng => some (repl, st, rng)
  | (k, counts, gs) :: rest, repl, st, rng => do
    let alts ← (counts.find? fun p => p.1 = k).map fun p => p.2
    let r := chooseFrom alts rng
    let sol ← r.1
    let st1 ← commitGraphTiles commit gs sol st
    faApplyCombo commit rest (repl + k) st1 r.2

/-- Pop the last element (the `Vec::pop` of `shuffled_mines.pop()`). -/
def popLast {α : Type} (l : List α) : Option (α × List α) :=
  (l.getLast?).map fun a => (a, l.dropLast)

/-- Inner cell loop of the final unconstrained sweep (solver.rs lines
511-515): every cell still unconstrained consumes one entry from the back
of the shuffled mine vector. -/
def faCellLoop {σ : Type} (commit : σ → Nat → Nat → Bool → Option σ) (i : Nat) :
    List (Nat × CellState) → List Bool → σ → Option (List Bool × σ)
  | [], sh, st => some (sh, st)
  | (k, cell) :: rest, sh, st =>
    match cell with
    | CellState.UnknownUnconstrained => do
      let r ← popLast sh
      let st1 ← commit st i k r.1
      faCellLoop commit i rest r.2 st1
    | _ => faCellLoop commit i rest sh st

/-- Row loop of the final unconstrained sweep (solver.rs lines 510-516);
note it runs over `Grid::rows`, which never yields the final row. -/
def faRowLoop {σ : Type} (commit : σ → Nat → Nat → Bool → Option σ) :
    List (Nat × List CellState) → List Bool → σ → Option (List Bool × σ)
  | [], sh, st => some (sh, st)
  | (i, row) :: rest, sh, st => do
    let r ← faCellLoop commit i row.enum sh st
    faRowLoop commit rest r.1 r.2

/-- solver.rs `PartialSolution::find_acomodating_solution`.  `commit` is
the `reconfigure_tile` callback acting on caller state `σ`; `keyOrders`
is the per-component `HashMap` key iteration order (see the header
comment).  Returns the mutated solution, the caller state, the boolean
result and the remaining generator; `none` models panics. -/
def findAcomodatingSolution (σ : Type) (commit : σ → Nat → Nat → Bool → Option σ)
    (ps : PartialSolution) (rng : List Nat) (revealed : List (Nat × Nat))
    (keyOrders : List (List Nat)) (st : σ) :
    Option (PartialSolution × σ × Bool × List Nat) := do
  let s1 ← faStep1 ps revealed []
  let ps1 := s1.1
  let uncRevealed := s1.2.1
  if s1.2.2 = false then pure (ps1, st, false, rng)
  else do
    let mcs := faMineCounts ps1.graphs_solutions
    let combs ← faSurviving ps1.grid.counters (keyOrders)
    let ch := chooseFrom combs rng
    let applied ← match ch.1 with
      | some combo =>
        faApplyCombo commit (combo.zip (mcs.zip ps1.graphs_solutions)) 0 st ch.2
      | none => pure (0, st, ch.2)
    let replaced := applied.1
    let st2 ← uncRevealed.foldlM (fun s k => commit s k.1 k.2 false) applied.2.1
    if ps1.grid.counters.hidden_mines < replaced then none
    else do
      let remaining := ps1.grid.counters.hidden_mines - replaced
      if ps1.grid.counters.unconstrained_cells < remaining then none
      else do
        let sh0 := List.replicate remaining true ++
          List.replicate (ps1.grid.counters.unconstrained_cells - remaining) false
        let shr := shuffleList sh0 applied.2.2
        let fin ← faRowLoop commit (ps1.grid.rows).enum shr.1 st2
        if fin.1.isEmpty then pure (ps1, fin.2, true, shr.2) else none

/-! ## Component extraction (solver.rs `find_graph_solutions`) -/

/-- Read one visited bit (the source indexes `visited[i][j]` on a bitvec
of exactly height×width; out of range never occurs there). -/
def visGet (v : List (List Bool)) (r c : Nat) : Bool :=
  (v.getD r []).getD c false

/-- Set one visited bit. -/
def visSet (v : List (List Bool)) (r c : Nat) : List (List Bool) :=
  v.set r ((v.getD r []).set c true)

/-- `or_insert` on the unknown-cell index map (solver.rs lines 355-356). -/
def ukmInsert (ukm : List ((Nat × Nat) × Nat)) (p : Nat × Nat) :
    List ((Nat × Nat) × Nat) × Nat :=
  match assocFind ukm p with
  | some id => (ukm, id)
  | none => (ukm ++ [(p, ukm.length)], ukm.length)

/-- Neighbor fold of the clue arm of `extract_graph_starting_from`
(solver.rs lines 352-361): each constrained neighbor gets a dense index,
joins the adjacency, and is enqueued if not yet visited. -/
def egClueNbrs (g : SGrid) :
    List ((Nat × Nat) × Nat) × List Nat × List (List Bool) × List (Nat × Nat) →
    List (Nat × Nat) →
    List ((Nat × Nat) × Nat) × List Nat × List (List Bool) × List (Nat × Nat)
  | st, [] => st
  | (ukm, adj, vis, q), p :: rest =>
    match g.get p.1 p.2 with
    | some CellState.UnknownConstrained =>
      let r := ukmInsert ukm p
      let st1 :=
        if visGet vis p.1 p.2 then (vis, q) else (visSet vis p.1 p.2, q ++ [p])
      egClueNbrs g (r.1, adj ++ [r.2], st1.1, st1.2) rest
    | _ => egClueNbrs g (ukm, adj, vis, q) rest

/-- Neighbor fold of the constrained arm of `extract_graph_starting_from`
(solver.rs lines 369-375): each positive clue neighbor is enqueued if not
yet visited. -/
def egUnkNbrs (g : SGrid) :
    List (List Bool) × List (Nat × Nat) → List (Nat × Nat) →
    List (List Bool) × List (Nat × Nat)
  | st, [] => st
  | (vis, q), p :: rest =>
    match g.get p.1 p.2 with
    | some (CellState.Clue v) =>
      if 0 < v then
        let st1 :=
          if visGet vis p.1 p.2 then (vis, q) else (visSet vis p.1 p.2, q ++ [p])
        egUnkNbrs g st1 rest
      else egUnkNbrs g (vis, q) rest
    | _ => egUnkNbrs g (vis, q) rest

/-- The breadth-first component walk of `extract_graph_starting_from`;
`none` models the assertion on a zero clue and the panic on a cell that is
neither a clue nor constrained. -/
def extractGraph (g : SGrid) :
    Nat → List (Nat × Nat) → List (List Bool) → List ((Nat × Nat) × Nat) → List SClue →
    Option (List (List Bool) × List ((Nat × Nat) × Nat) × List SClue)
  | 0, _, _, _, _ => none
  | _ + 1, [], vis, ukm, clues => some (vis, ukm, clues)
  | fuel + 1, p :: rest, vis, ukm, clues =>
    match g.get p.1 p.2 with
    | some (CellState.Clue v) =>
      if 0 < v then
        let st := egClueNbrs g (ukm, [], vis, rest) (neighborsOf g.w g.h p.1 p.2)
        extractGraph g fuel st.2.2.2 st.2.2.1 st.1 (clues ++ [⟨v, st.2.1⟩])
      else none
    | some CellState.UnknownConstrained =>
      let st := egUnkNbrs g (vis, rest) (neighborsOf g.w g.h p.1 p.2)
      extractGraph g fuel st.2 st.1 ukm clues
    | some _ => none
    | none => none

/-- Per-cell body of the outer scan of `find_graph_solutions` (solver.rs
lines 294-317): an unvisited positive clue seeds a component extraction
followed by the exhaustive search. -/
def fgsCell (g : SGrid) (fuel : Nat) (i j : Nat) (cell : CellState)
    (st : List (List Bool) × List GraphSolution) :
    Option (List (List Bool) × List GraphSolution) :=
  if visGet st.1 i j then some st
  else
    match cell with
    | CellState.Clue v =>
      if 0 < v then do
        let r ← extractGraph g fuel [(i, j)] (visSet st.1 i j) [] []
        let alts ← find_solutions fuel ⟨r.2.1.length, r.2.2⟩
        pure (r.1, st.2 ++ [⟨r.2.1, alts⟩])
      else some st
    | _ => some st

/-- solver.rs `PartialSolution::find_graph_solutions`: rebuild every
component's alternative set.  The outer scan runs over `Grid::rows`
(which never yields the final row). -/
def find_graph_solutions (fuel : Nat) (s : PartialSolution) : Option PartialSolution := do
  let init : List (List Bool) := List.replicate s.grid.h (List.replicate s.grid.w false)
  let r ← (s.grid.rows).enum.foldlM
    (fun (st : List (List Bool) × List GraphSolution) pr =>
      pr.2.enum.foldlM (fun st2 pc => fgsCell s.grid fuel pr.1 pc.1 pc.2 st2) st)
    (init, ([] : List GraphSolution))
  pure { s with graphs_solutions := r.2 }

/-! ## The minefield front of the core (minefield.rs) -/

/-- minefield.rs `UserMarking`. -/
inductive UserMarking where
  | None
  | Flag
  | QuestionMark
deriving DecidableEq

/-- minefield.rs `Content`. -/
inductive Content where
  | Empty
  | Mine
deriving DecidableEq

/-- minefield.rs `Tile`. -/
inductive Tile where
  | Hidden (c : Content) (m : UserMarking)
  | Revealed (n : Nat)
deriving DecidableEq

/-- minefield.rs `MinefieldCounters`. -/
structure MinefieldCounters where
  flag_count : Nat
  revealed_count : Nat
deriving DecidableEq

/-- minefield.rs `MinefieldCounters::notify_change`: `none` models the
debug underflow of `flag_count -= 1` and the assertion that a revealed
tile is never re-revealed. -/
def MinefieldCounters.notify_change (cnt : MinefieldCounters) (fromT toT : Tile) :
    Option MinefieldCounters :=
  let step1 : Option MinefieldCounters :=
    match fromT with
    | Tile.Hidden _ UserMarking.Flag =>
      if cnt.flag_count = 0 then none
      else some { cnt with flag_count := cnt.flag_count - 1 }
    | _ => some cnt
  step1.bind fun c1 =>
    match toT with
    | Tile.Hidden _ UserMarking.Flag => some { c1 with flag_count := c1.flag_count + 1 }
    | Tile.Revealed _ =>
      match fromT with
      | Tile.Revealed _ => none
      | _ => some { c1 with revealed_count := c1.revealed_count + 1 }
    | _ => some c1

/-- The minefield grid instantiation. -/
abbrev MGrid := Grid Tile MinefieldCounters

/-- Grid write with the minefield counter hook. -/
def MGrid.mset (g : MGrid) (row col : Nat) (v : Tile) : Option MGrid :=
  Grid.set MinefieldCounters.notify_change g row col v

/-- minefield.rs `Minefield`. -/
structure Minefield where
  grid : MGrid
  mine_count : Nat
  sol : PartialSolution
deriving DecidableEq

/-- The marking cycle of minefield.rs `Minefield::switch_mark`:
none → flag → question-mark → none. -/
def markCycle : UserMarking → UserMarking
  | UserMarking.None => UserMarking.Flag
  | UserMarking.Flag => UserMarking.QuestionMark
  | UserMarking.QuestionMark => UserMarking.None

/-- minefield.rs `Minefield::switch_mark`: cycle the marking of a hidden
tile; a revealed tile is untouched. -/
def switch_mark (m : Minefield) (row col : Nat) : Option Minefield :=
  match m.grid.get row col with
  | some (Tile.Hidden c mark) =>
    (m.grid.mset row col (Tile.Hidden c (markCycle mark))).map fun g => { m with grid := g }
  | some (Tile.Revealed _) => some m
  | none => none

/-- minefield.rs `Minefield::is_all_revealed`. -/
def is_all_revealed (m : Minefield) : Bool :=
  decide (m.grid.counters.revealed_count + m.mine_count = m.grid.w * m.grid.h)

/-- Number of flagged neighbors of a cell (the fold in
`find_revealed_cells`, minefield.rs lines 146-151). -/
def countNeighborFlags (m : Minefield) (row col : Nat) : Option Nat :=
  (neighborsOf m.grid.w m.grid.h row col).foldlM
    (fun acc p =>
      (m.grid.get p.1 p.2).map fun t =>
        match t with
        | Tile.Hidden _ UserMarking.Flag => acc + 1
        | _ => acc)
    0

/-- minefield.rs `Minefield::find_revealed_cells` with
`process_revealed = false`: a revealed tile contributes nothing. -/
def findRevealedBase (m : Minefield) (row col : Nat) :
    Option (List (Nat × Nat × Bool)) :=
  match m.grid.get row col with
  | some (Tile.Hidden _ UserMarking.Flag) => some []
  | some (Tile.Hidden Content.Mine _) => some [(row, col, true)]
  | some (Tile.Hidden Content.Empty _) => some [(row, col, false)]
  | some (Tile.Revealed _) => some []
  | none => none

/-- minefield.rs `Minefield::find_revealed_cells` with
`process_revealed = true`: additionally, a revealed clue surrounded by
exactly its count of flags expands to its unflagged neighbors. -/
def find_revealed_cells (m : Minefield) (row col : Nat) :
    Option (List (Nat × Nat × Bool)) :=
  match m.grid.get row col with
  | some (Tile.Hidden _ UserMarking.Flag) => some []
  | some (Tile.Hidden Content.Mine _) => some [(row, col, true)]
  | some (Tile.Hidden Content.Empty _) => some [(row, col, false)]
  | some (Tile.Revealed count) =>
    (countNeighborFlags m row col).bind fun flags =>
      if count = flags then
        (neighborsOf m.grid.w m.grid.h row col).foldlM
          (fun acc p => (findRevealedBase m p.1 p.2).map fun sub => acc ++ sub) []
      else some []
  | none => none

/-- minefield.rs `Minefield::count_neighbor_bombs`. -/
def countNeighborBombs (m : Minefield) (row col : Nat) : Option Nat :=
  (neighborsOf m.grid.w m.grid.h row col).foldlM
    (fun acc p =>
      (m.grid.get p.1 p.2).map fun t =>
        match t with
        | Tile.Hidden Content.Mine _ => acc + 1
        | _ => acc)
    0

/-- The `reconfigure_tile` callback of minefield.rs `try_reacomodate`
(lines 172-184): rewrite the content of a hidden tile, keep its marking;
a revealed tile is a panic. -/
def mfCommit (g : MGrid) (row col : Nat) (isMine : Bool) : Option MGrid :=
  match g.get row col with
  | some (Tile.Hidden _ mark) =>
    g.mset row col (Tile.Hidden (if isMine then Content.Mine else Content.Empty) mark)
  | some (Tile.Revealed _) => none
  | none => none

/-- minefield.rs `Minefield::try_reacomodate` (timing/printing side
effects of the source are pure no-ops and omitted). -/
def try_reacomodate (m : Minefield) (rng : List Nat) (keyOrders : List (List Nat))
    (revealed : List (Nat × Nat)) : Option (Minefield × Bool × List Nat) := do
  let r ← findAcomodatingSolution MGrid mfCommit m.sol rng revealed keyOrders m.grid
  pure ({ m with sol := r.1, grid := r.2.1 }, r.2.2.1, r.2.2.2)

/-- minefield.rs `Minefield::recursive_reveal`: reveal a hidden empty
tile, feed the clue to the solver, and flood into the neighbors when the
clue is zero.  Fuel bounds the recursion depth (also used for the solver
propagation); the source recursion always terminates because each step
reveals one hidden tile. -/
def recursive_reveal : Nat → Minefield → Nat → Nat → Option Minefield
  | 0, _, _, _ => none
  | fuel + 1, m, row, col =>
    match m.grid.get row col with
    | some (Tile.Hidden Content.Empty _) => do
      let bombs ← countNeighborBombs m row col
      let g1 ← m.grid.mset row col (Tile.Revealed bombs)
      let sol1 ← add_clue (fuel + 1) m.sol (row, col) bombs
      let m1 : Minefield := { m with grid := g1, sol := sol1 }
      if bombs = 0 then
        (neighborsOf m1.grid.w m1.grid.h row col).foldlM
          (fun mm p => recursive_reveal fuel mm p.1 p.2) m1
      else some m1
    | some _ => some m
    | none => none

/-- minefield.rs `Minefield::reveal` (timing/printing side effects
omitted).  Note the short-circuit: `try_reacomodate` runs only when some
target actually holds a mine, and the component recomputation runs only
after a survived reveal that revealed something. -/
def Minefield.reveal (fuel : Nat) (rng : List Nat) (keyOrders : List (List Nat))
    (m : Minefield) (row col : Nat) : Option (Minefield × Bool × List Nat) := do
  let cells ← find_revealed_cells m row col
  let was := !cells.isEmpty
  let had := cells.any fun x => x.2.2
  let step ←
    if had then try_reacomodate m rng keyOrders (cells.map fun x => (x.1, x.2.1))
    else pure (m, true, rng)
  let m1 := step.1
  let survived := step.2.1
  let rng1 := step.2.2
  let m2 ← cells.foldlM (fun mm x => recursive_reveal fuel mm x.1 x.2.1) m1
  let m3 ←
    if survived && was then
      (find_graph_solutions fuel m2.sol).map fun sol1 => { m2 with sol := sol1 }
    else pure m2
  pure (m3, survived, rng1)

/-! ## Reachability of solver states and the stated invariants -/

/-- Solver states reachable from a fresh board by completed `add_clue`
and `find_acomodating_solution` calls (the two operations named by the
spec's invariant section). -/
inductive Reach : PartialSolution → Prop where
  | init (w h m : Nat) : Reach (PartialSolution.new w h m)
  | clue {s s' : PartialSolution} {fuel : Nat} {cell : Nat × Nat} {raw : Nat} :
      Reach s → add_clue fuel s cell raw = some s' → Reach s'
  | acomodate {σ : Type} {commit : σ → Nat → Nat → Bool → Option σ}
      {s s' : PartialSolution} {rng rng' : List Nat} {revealed : List (Nat × Nat)}
      {keyOrders : List (List Nat)} {st st' : σ} {b : Bool} :
      Reach s →
      findAcomodatingSolution σ commit s rng revealed keyOrders st = some (s', st', b, rng') →
      Reach s'

/-- Decidable form of `no clue cell has an UnknownUnconstrained
neighbor` over the whole board. -/
def clueNeighborsOk (g : SGrid) : Bool :=
  (List.range g.h).all fun r =>
    (List.range g.w).all fun c =>
      match g.get r c with
      | some (CellState.Clue _) =>
        (neighborsOf g.w g.h r c).all fun p =>
          g.get p.1 p.2 ≠ some CellState.UnknownUnconstrained
      | _ => true

/-- Number of neighbors of a cell that are `Mine` or whose mine/empty
status is still open (`UnknownConstrained` or `UnknownUnconstrained`),
the quantity of the spec's clue invariant. -/
def mineOrOpenCount (s : PartialSolution) (r c : Nat) : Nat :=
  ((neighborsOf s.grid.w s.grid.h r c).filter fun p =>
    match s.grid.get p.1 p.2 with
    | some CellState.Mine => true
    | some CellState.UnknownConstrained => true
    | some CellState.UnknownUnconstrained => true
    | _ => false).length

/-- Whether the free-pool counter agrees with the number of
`UnknownUnconstrained` cells of the grid. -/
def counterMatches (g : SGrid) : Prop :=
  g.counters.unconstrained_cells =
    g.data.countP fun cst => cst = CellState.UnknownUnconstrained

/-- The cell transitions actually performed on the solver grid by the
propagation worklist, the `add_clue` neighbor scan and step 1 of the
reconciliation: promotions, forced mines/empties and clue updates over
existing clues.  (The one write outside this set is `add_clue` writing
the new `Clue` cell itself, handled separately.) -/
def allowedWrite (old v : CellState) : Prop :=
  (old = CellState.UnknownUnconstrained ∧ v = CellState.UnknownConstrained) ∨
  (old = CellState.UnknownUnconstrained ∧ v = CellState.Empty) ∨
  (old = CellState.UnknownConstrained ∧ v = CellState.Mine) ∨
  (old = CellState.UnknownConstrained ∧ v = CellState.Empty) ∨
  (∃ n k, old = CellState.Clue n ∧ v = CellState.Clue k)

/-- A sequence of allowed solver-grid writes. -/
inductive SolverChain : SGrid → SGrid → Prop where
  | refl (g : SGrid) : SolverChain g g
  | step {g g1 g2 : SGrid} {r c : Nat} {old v : CellState} :
      g.get r c = some old → allowedWrite old v → g.sset r c v = some g1 →
      SolverChain g1 g2 → SolverChain g g2

/-- The propositional form of the amended clue invariant: no clue cell
has an `UnknownUnconstrained` neighbor. -/
def Jprop (g : SGrid) : Prop :=
  ∀ r c n, g.get r c = some (CellState.Clue n) →
    ∀ p ∈ neighborsOf g.w g.h r c,
      g.get p.1 p.2 ≠ some CellState.UnknownUnconstrained

/-! ## Concrete instances used by the counterexample/failing-input
theorems below -/

/-- A trivial recording callback for exercising
`find_acomodating_solution` standalone. -/
def recCommit (st : List (Nat × Nat × Bool)) (r c : Nat) (b : Bool) :
    Option (List (Nat × Nat × Bool)) :=
  some ((r, c, b) :: st)

/-- Failing input of claim C1, success variant: a single constrained cell
whose only cached alternative needs one mine while the hidden-mine budget
is zero — every combination fails the step-3 filter. -/
def c1psA : PartialSolution :=
  { grid := { counters := { unconstrained_cells := 0, hidden_mines := 0 },
              data := [CellState.UnknownConstrained], w := 1, h := 1 }
    graphs_solutions := [⟨[((0, 0), 0)], [[true]]⟩] }

/-- Failing input of claim C1, panic variant: after pruning, the only
alternative needs two mines against a budget of one and an empty free
pool. -/
def c1psB : PartialSolution :=
  { grid := { counters := { unconstrained_cells := 0, hidden_mines := 1 },
              data := [CellState.UnknownConstrained, CellState.UnknownConstrained,
                       CellState.UnknownConstrained],
              w := 3, h := 1 }
    graphs_solutions := [⟨[((0, 0), 0), ((0, 1), 1), ((0, 2), 2)],
      [[true, false, false], [false, true, true]]⟩] }

/-- Counterexample state of claim C5: a 1×2 board with one mine after
revealing the clue 1 at (0,0); the forced deduction makes (0,1) a `Mine`
and decrements the clue to 0. -/
def c5state : PartialSolution :=
  (add_clue 20 (PartialSolution.new 2 1 1) (0, 0) 1).getD (PartialSolution.new 2 1 1)

/-- Solver state of the claim C8 counterexample: one three-cell component
with alternatives of one and of two mines, one free cell, budget two. -/
def c8sol : PartialSolution :=
  { grid := { counters := { unconstrained_cells := 1, hidden_mines := 2 },
              data := [CellState.UnknownUnconstrained, CellState.UnknownConstrained,
                       CellState.UnknownConstrained, CellState.UnknownConstrained],
              w := 2, h := 2 }
    graphs_solutions := [⟨[((0, 1), 0), ((1, 0), 1), ((1, 1), 2)],
      [[false, true, false], [false, true, true]]⟩] }

/-- Minefield of the claim C8 counterexample: the player reveals the mine
at (0,1); which surviving combination is committed depends on the
`HashMap` key iteration order. -/
def c8mf : Minefield :=
  { grid := { counters := { flag_count := 0, revealed_count := 0 },
              data := [Tile.Hidden Content.Empty UserMarking.None,
                       Tile.Hidden Content.Mine UserMarking.None,
                       Tile.Hidden Content.Empty UserMarking.None,
                       Tile.Hidden Content.Empty UserMarking.None],
              w := 2, h := 2 }
    mine_count := 2
    sol := c8sol }

/-- A concrete 1×1 minefield with a flagged mine (witness input for the
flag claims). -/
def flaggedMf : Minefield :=
  { grid := { counters := { flag_count := 1, revealed_count := 0 },
              data := [Tile.Hidden Content.Mine UserMarking.Flag], w := 1, h := 1 }
    mine_count := 1
    sol := PartialSolution.new 1 1 1 }

/-! ## Specification predicates for the component search proof -/

/-- Every pruning check between positions `lo` and the end of `x`
passes (the path `x` would survive the queue loop from a prefix of
length `lo`). -/
def checkedPath (t : Topology) (u2c : List (List Nat)) (x : List Bool) (lo : Nat) : Prop :=
  ∀ k, lo ≤ k → k < x.length → isLastPossible t (u2c.getD k []) (x.take (k + 1)) = true

/-- The complete assignments reachable from partial assignment `s` with
every intermediate feasibility check passing. -/
def Completions (t : Topology) (u2c : List (List Nat)) (s x : List Bool) : Prop :=
  x.length = t.unknown_count ∧ x.take s.length = s ∧ checkedPath t u2c x s.length

/-! # Theorems -/

/-! ## A small kit of facts about the grid operations -/

theorem list_set_self {α : Type} : ∀ (l : List α) (i : Nat) (a : α),
    l.get? i = some a → l.set i a = l := by
  intro l
  induction l with
  | nil => intro i a h; cases h
  | cons x xs ih =>
    intro i a h
    cases i with
    | zero => simp_all
    | succ n => simp only [List.get?] at h; simp [ih n a h]

theorem rowcol_inj {w r1 c1 r2 c2 : Nat} (h1 : c1 < w) (h2 : c2 < w)
    (he : r1 * w + c1 = r2 * w + c2) : r1 = r2 ∧ c1 = c2 := by
  have hw : 0 < w := Nat.lt_of_le_of_lt (Nat.zero_le _) h1
  have hr : r1 = r2 := by
    have d1 : (r1 * w + c1) / w = r1 := by
      rw [Nat.mul_comm, Nat.mul_add_div hw, Nat.div_eq_of_lt h1, Nat.add_zero]
    have d2 : (r2 * w + c2) / w = r2 := by
      rw [Nat.mul_comm, Nat.mul_add_div hw, Nat.div_eq_of_lt h2, Nat.add_zero]
    rw [← d1, ← d2, he]
  refine ⟨hr, ?_⟩
  subst hr
  omega

theorem Grid.get_bounds {α C : Type} {g : Grid α C} {row col : Nat} {a : α}
    (h : g.get row col = some a) :
    row < g.h ∧ col < g.w ∧ g.data.get? (row * g.w + col) = some a := by
  unfold Grid.get at h
  split at h
  · next hb => exact ⟨hb.1, hb.2, h⟩
  · cases h

theorem Grid.set_spec {α C : Type} {notify : C → α → α → Option C} {g g' : Grid α C}
    {row col : Nat} {v : α} (h : Grid.set notify g row col v = some g') :
    ∃ old cnt, g.get row col = some old ∧ notify g.counters old v = some cnt ∧
      g' = { g with counters := cnt, data := g.data.set (row * g.w + col) v } := by
  unfold Grid.set at h
  cases hg : g.get row col with
  | none => rw [hg] at h; cases h
  | some old =>
    rw [hg] at h
    cases hn : notify g.counters old v with
    | none => simp [hn] at h
    | some cnt =>
      refine ⟨old, cnt, rfl, hn, ?_⟩
      simp [hn] at h
      exact h.symm

theorem Grid.set_dims {α C : Type} {notify : C → α → α → Option C} {g g' : Grid α C}
    {row col : Nat} {v : α} (h : Grid.set notify g row col v = some g') :
    g'.w = g.w ∧ g'.h = g.h := by
  obtain ⟨old, cnt, _, _, he⟩ := Grid.set_spec h
  subst he
  exact ⟨rfl, rfl⟩

theorem Grid.get_set_self {α C : Type} {notify : C → α → α → Option C} {g g' : Grid α C}
    {row col : Nat} {v : α} (h : Grid.set notify g row col v = some g') :
    g'.get row col = some v := by
  obtain ⟨old, cnt, hg, _, he⟩ := Grid.set_spec h
  obtain ⟨hr, hc, hd⟩ := Grid.get_bounds hg
  have hlt : row * g.w + col < g.data.length := List.get?_eq_some.mp hd |>.1
  subst he
  unfold Grid.get
  simp only [hr, hc, and_self, if_pos]
  exact List.get?_set_eq_of_lt v hlt

theorem Grid.get_set_other {α C : Type} {notify : C → α → α → Option C} {g g' : Grid α C}
    {row col : Nat} {v : α} (h : Grid.set notify g row col v = some g')
    (r2 c2 : Nat) (hne : ¬(r2 = row ∧ c2 = col)) :
    g'.get r2 c2 = g.get r2 c2 := by
  obtain ⟨old, cnt, hg, _, he⟩ := Grid.set_spec h
  obtain ⟨hr, hc, _⟩ := Grid.get_bounds hg
  subst he
  unfold Grid.get
  by_cases hb : r2 < g.h ∧ c2 < g.w
  · simp only [hb, if_pos]
    have hik : r2 * g.w + c2 ≠ row * g.w + col := by
      intro heq
      exact hne ⟨(rowcol_inj hb.2 hc heq).1, (rowcol_inj hb.2 hc heq).2⟩
    exact List.get?_set_ne v _ (Ne.symm hik)
  · simp only [hb, if_neg, if_false]

theorem Grid.get_build {α C : Type} (g : Grid α C) (cnt : C) (v : α) {row col : Nat} {a : α}
    (h : g.get row col = some a) :
    Grid.get { counters := cnt, data := g.data.set (row * g.w + col) v, w := g.w, h := g.h }
      row col = some v := by
  obtain ⟨hr, hc, hd⟩ := Grid.get_bounds h
  have hlt : row * g.w + col < g.data.length := (List.get?_eq_some.mp hd).1
  unfold Grid.get
  simp only [hr, hc, and_self, if_pos]
  exact List.get?_set_eq_of_lt v hlt

theorem Grid.get_set_cases {α C : Type} {notify : C → α → α → Option C} {g g' : Grid α C}
    {row col : Nat} {v : α} (h : Grid.set notify g row col v = some g')
    (r2 c2 : Nat) :
    g'.get r2 c2 = some v ∨ g'.get r2 c2 = g.get r2 c2 := by
  by_cases hb : r2 = row ∧ c2 = col
  · left; obtain ⟨h1, h2⟩ := hb; subst h1; subst h2; exact Grid.get_set_self h
  · right; exact Grid.get_set_other h r2 c2 hb

theorem countP_set_val {α : Type} (p : α → Bool) :
    ∀ (l : List α) (i : Nat) (old v : α), l.get? i = some old →
    (l.set i v).countP p + (if p old then 1 else 0) =
      l.countP p + (if p v then 1 else 0) := by
  intro l
  induction l with
  | nil => intro i old v h; cases h
  | cons x xs ih =>
    intro i old v h
    cases i with
    | zero =>
      have hx : x = old := by simpa using h
      subst hx
      simp only [List.set, List.countP_cons]
      by_cases hpv : p v <;> by_cases hpo : p x <;> simp [hpv, hpo] <;> omega
    | succ n =>
      have h2 : xs.get? n = some old := by simpa using h
      simp only [List.set, List.countP_cons]
      have := ih n old v h2
      by_cases hpx : p x <;> simp [hpx] <;> omega

/-! ## Chains of allowed solver writes -/

theorem SolverChain.trans {g1 g2 g3 : SGrid}
    (h1 : SolverChain g1 g2) (h2 : SolverChain g2 g3) : SolverChain g1 g3 := by
  induction h1 with
  | refl g => exact h2
  | step hold hw hs _ ih => exact SolverChain.step hold hw hs (ih h2)

theorem allowedWrite_facts {old v : CellState} (h : allowedWrite old v) :
    old ≠ CellState.Empty ∧ old ≠ CellState.Mine ∧
    v ≠ CellState.UnknownUnconstrained ∧
    (∀ k, v = CellState.Clue k → ∃ n, old = CellState.Clue n) := by
  rcases h with ⟨h1, h2⟩ | ⟨h1, h2⟩ | ⟨h1, h2⟩ | ⟨h1, h2⟩ | ⟨n, k, h1, h2⟩ <;>
    subst h1 <;> subst h2 <;>
    refine ⟨by simp, by simp, by simp, ?_⟩ <;> intro k2 hk2 <;> cases hk2 <;>
      exact ⟨_, rfl⟩

theorem sset_dims {g g' : SGrid} {r c : Nat} {v : CellState}
    (h : g.sset r c v = some g') :
    g'.w = g.w ∧ g'.h = g.h ∧ g'.data.length = g.data.length := by
  obtain ⟨old, cnt, _, _, he⟩ := Grid.set_spec h
  subst he
  simp

theorem SolverChain.dims {g g' : SGrid} (h : SolverChain g g') :
    g'.w = g.w ∧ g'.h = g.h ∧ g'.data.length = g.data.length := by
  induction h with
  | refl g => exact ⟨rfl, rfl, rfl⟩
  | step hold hw hs _ ih =>
    obtain ⟨w1, h1, l1⟩ := sset_dims hs
    obtain ⟨w2, h2, l2⟩ := ih
    exact ⟨w2.trans w1, h2.trans h1, l2.trans l1⟩

/-- Along a chain, `Empty` and `Mine` cells never change (no allowed
write targets them). -/
theorem SolverChain.preserve_val {g g' : SGrid} (h : SolverChain g g')
    {x1 x2 : Nat} {a : CellState}
    (ha : a = CellState.Empty ∨ a = CellState.Mine)
    (hx : g.get x1 x2 = some a) : g'.get x1 x2 = some a := by
  induction h with
  | refl g => exact hx
  | @step g g1 g2 r c old v hold hw hs _ ih =>
    obtain ⟨hoe, hom, _, _⟩ := allowedWrite_facts hw
    apply ih
    by_cases he : x1 = r ∧ x2 = c
    · obtain ⟨e1, e2⟩ := he
      subst e1; subst e2
      rw [hx] at hold
      cases hold
      rcases ha with h2 | h2 <;> [exact absurd h2 hoe; exact absurd h2 hom]
    · rw [Grid.get_set_other hs x1 x2 he]
      exact hx

/-- Along a chain the set of `UnknownUnconstrained` cells only shrinks. -/
theorem SolverChain.nonU_back {g g' : SGrid} (h : SolverChain g g')
    {x1 x2 : Nat} (hx : g'.get x1 x2 = some CellState.UnknownUnconstrained) :
    g.get x1 x2 = some CellState.UnknownUnconstrained := by
  induction h with
  | refl g => exact hx
  | @step g g1 g2 r c old v hold hw hs _ ih =>
    obtain ⟨_, _, hvU, _⟩ := allowedWrite_facts hw
    have h1 := ih hx
    rcases Grid.get_set_cases hs x1 x2 with hc | hc
    · rw [h1] at hc
      cases hc
      exact absurd rfl hvU
    · rw [← hc]
      exact h1

/-- Along a chain no clue cell is created, and the clue invariant is
preserved. -/
theorem SolverChain.preserve_J {g g' : SGrid} (h : SolverChain g g')
    (hJ : Jprop g) : Jprop g' := by
  induction h with
  | refl g => exact hJ
  | @step g g1 g2 r c old v hold hw hs hch ih =>
    apply ih
    obtain ⟨hw1, hh1, _⟩ := sset_dims hs
    intro r2 c2 n hclue p hp hpu
    rw [hw1, hh1] at hp
    have hvU : v ≠ CellState.UnknownUnconstrained := (allowedWrite_facts hw).2.2.1
    have hpu0 : g.get p.1 p.2 = some CellState.UnknownUnconstrained := by
      rcases Grid.get_set_cases hs p.1 p.2 with hc | hc
      · rw [hpu] at hc; cases hc; exact absurd rfl hvU
      · rw [← hc]; exact hpu
    have hclue0 : g.get r2 c2 = some (CellState.Clue n) ∨
        (r2 = r ∧ c2 = c ∧ ∃ n0, g.get r2 c2 = some (CellState.Clue n0)) := by
      by_cases he : r2 = r ∧ c2 = c
      · obtain ⟨e1, e2⟩ := he
        subst e1; subst e2
        have hv : g1.get r2 c2 = some v := Grid.get_set_self hs
        rw [hclue] at hv
        cases hv
        obtain ⟨n0, hn0⟩ := (allowedWrite_facts hw).2.2.2 n rfl
        subst hn0
        exact Or.inr ⟨rfl, rfl, n0, hold⟩
      · rw [Grid.get_set_other hs r2 c2 he] at hclue
        exact Or.inl hclue
    rcases hclue0 with hc | ⟨e1, e2, n0, hc⟩
    · exact hJ r2 c2 n hc p hp hpu0
    · subst e1; subst e2
      exact hJ r2 c2 n0 hc p hp hpu0

/-- Along a chain the free-pool counter stays equal to the number of
`UnknownUnconstrained` cells. -/
theorem SolverChain.preserve_counter {g g' : SGrid} (h : SolverChain g g')
    (hc : counterMatches g) : counterMatches g' := by
  induction h with
  | refl g => exact hc
  | @step g g1 g2 r c old v hold hw hs hch ih =>
    apply ih
    obtain ⟨old2, cnt, hget2, hn, he⟩ := Grid.set_spec hs
    rw [hold] at hget2
    cases hget2
    obtain ⟨_, _, hdata⟩ := Grid.get_bounds hold
    have hcount := countP_set_val
      (fun cst => decide (cst = CellState.UnknownUnconstrained))
      g.data (r * g.w + c) old v hdata
    unfold counterMatches at hc ⊢
    subst he
    simp only
    rcases hw with ⟨h1, h2⟩ | ⟨h1, h2⟩ | ⟨h1, h2⟩ | ⟨h1, h2⟩ | ⟨n, k, h1, h2⟩ <;>
      subst h1 <;> subst h2 <;>
      unfold Counters.notify_change at hn
    · -- UnknownUnconstrained → UnknownConstrained
      by_cases hz : g.counters.unconstrained_cells = 0
      · simp [hz] at hn
      · simp only [hz, if_false, if_neg] at hn
        simp only [Option.some_bind] at hn
        cases hn
        simp at hcount
        simp only
        omega
    · -- UnknownUnconstrained → Empty
      by_cases hz : g.counters.unconstrained_cells = 0
      · simp [hz] at hn
      · simp only [hz, if_false, if_neg] at hn
        simp only [Option.some_bind] at hn
        cases hn
        simp at hcount
        simp only
        omega
    · -- UnknownConstrained → Mine
      by_cases hz : g.counters.hidden_mines = 0
      · simp [hz] at hn
      · simp only [Option.some_bind] at hn
        simp only [hz, if_false, if_neg] at hn
        cases hn
        simp at hcount
        simp only
        omega
    · -- UnknownConstrained → Empty
      simp only [Option.some_bind] at hn
      cases hn
      simp at hcount
      omega
    · -- Clue → Clue
      simp only [Option.some_bind] at hn
      cases hn
      simp at hcount
      omega

/-! ## Each solver operation only performs allowed writes -/

theorem toMineNbrs_chain : ∀ {l : List (Nat × Nat)} {g : SGrid}
    {iq : List (Nat × Nat)} {q : List ((Nat × Nat) × UpdateAction)}
    {res : SGrid × List (Nat × Nat) × List ((Nat × Nat) × UpdateAction)},
    toMineNbrs g iq q l = some res → SolverChain g res.1 := by
  intro l
  induction l with
  | nil =>
    intro g iq q res h
    cases h
    exact SolverChain.refl _
  | cons p rest ih =>
    intro g iq q res h
    unfold toMineNbrs at h
    split at h
    next v heq =>
      split at h
      next hv =>
        rw [Option.bind_eq_some] at h
        obtain ⟨st, _, h⟩ := h
        rw [Option.bind_eq_some] at h
        obtain ⟨g1, hset, h⟩ := h
        exact SolverChain.step heq
          (Or.inr (Or.inr (Or.inr (Or.inr ⟨v, v - 1, rfl, rfl⟩)))) hset (ih h)
      next hv => exact ih h
    next heq2 => exact ih h
    next => cases h

theorem bfsStep_chain {g : SGrid} {p : Nat × Nat} {a : UpdateAction}
    {q : List ((Nat × Nat) × UpdateAction)} {iq : List (Nat × Nat)}
    {res : SGrid × List ((Nat × Nat) × UpdateAction) × List (Nat × Nat)}
    (h : bfsStep g p a q iq = some res) : SolverChain g res.1 := by
  cases a with
  | CheckIfClueFindMines =>
    simp only [bfsStep] at h
    split at h
    next v heq =>
      obtain ⟨v2, hv2, h⟩ := Option.bind_eq_some.mp h
      cases hv2
      obtain ⟨unknowns, _, h⟩ := Option.bind_eq_some.mp h
      split at h
      next hlt => cases h
      next hlt =>
        split at h
        next hleneq =>
          obtain ⟨g1, hset, h⟩ := Option.bind_eq_some.mp h
          cases h
          exact SolverChain.step heq
            (Or.inr (Or.inr (Or.inr (Or.inr ⟨v, 0, rfl, rfl⟩)))) hset (SolverChain.refl _)
        next hleneq =>
          cases h
          exact SolverChain.refl _
    next x heq =>
      obtain ⟨u, hu, h⟩ := Option.bind_eq_some.mp h
      cases hu
  | ToMine =>
    simp only [bfsStep] at h
    split at h
    next heq =>
      obtain ⟨u, hu, h⟩ := Option.bind_eq_some.mp h
      cases hu
      obtain ⟨g1, hset, h⟩ := Option.bind_eq_some.mp h
      obtain ⟨r, hr, h⟩ := Option.bind_eq_some.mp h
      cases h
      exact SolverChain.step heq (Or.inr (Or.inr (Or.inl ⟨rfl, rfl⟩))) hset
        (toMineNbrs_chain hr)
    next x heq =>
      obtain ⟨u, hu, h⟩ := Option.bind_eq_some.mp h
      cases hu
  | CheckIfClueFindEmpties =>
    simp only [bfsStep] at h
    split at h
    next heq =>
      obtain ⟨u, hu, h⟩ := Option.bind_eq_some.mp h
      cases hu
      obtain ⟨st, _, h⟩ := Option.bind_eq_some.mp h
      cases h
      exact SolverChain.refl _
    next x heq =>
      obtain ⟨u, hu, h⟩ := Option.bind_eq_some.mp h
      cases hu
  | ToEmpty =>
    simp only [bfsStep] at h
    split at h
    next heq =>
      obtain ⟨u, hu, h⟩ := Option.bind_eq_some.mp h
      cases hu
      obtain ⟨g1, hset, h⟩ := Option.bind_eq_some.mp h
      obtain ⟨st, _, h⟩ := Option.bind_eq_some.mp h
      cases h
      exact SolverChain.step heq (Or.inr (Or.inr (Or.inr (Or.inl ⟨rfl, rfl⟩)))) hset
        (SolverChain.refl _)
    next x heq =>
      obtain ⟨u, hu, h⟩ := Option.bind_eq_some.mp h
      cases hu

theorem bfsRun_chain : ∀ {fuel : Nat} {g : SGrid}
    {q : List ((Nat × Nat) × UpdateAction)} {iq : List (Nat × Nat)} {g' : SGrid},
    bfsRun fuel g q iq = some g' → SolverChain g g' := by
  intro fuel
  induction fuel with
  | zero => intro g q iq g' h; cases h
  | succ n ih =>
    intro g q iq g' h
    cases q with
    | nil =>
      cases h
      exact SolverChain.refl _
    | cons e rest =>
      unfold bfsRun at h
      rw [Option.bind_eq_some] at h
      obtain ⟨r, hr, h⟩ := h
      exact (bfsStep_chain hr).trans (ih h)

theorem addClueScanGo_chain : ∀ {l : List (Nat × Nat)} {g : SGrid}
    {res : SGrid × List (Nat × Nat) × Nat},
    addClueScanGo g l = some res → SolverChain g res.1 := by
  intro l
  induction l with
  | nil =>
    intro g res h
    cases h
    exact SolverChain.refl _
  | cons p rest ih =>
    intro g res h
    unfold addClueScanGo at h
    split at h
    next heq =>
      rw [Option.bind_eq_some] at h
      obtain ⟨g1, hset, h⟩ := h
      rw [Option.map_eq_some'] at h
      obtain ⟨r, hr, h⟩ := h
      have hch := ih hr
      cases h
      exact SolverChain.step heq (Or.inl ⟨rfl, rfl⟩) hset hch
    next heq =>
      rw [Option.map_eq_some'] at h
      obtain ⟨r, hr, h⟩ := h
      have hch := ih hr
      cases h
      exact hch
    next heq =>
      rw [Option.map_eq_some'] at h
      obtain ⟨r, hr, h⟩ := h
      have hch := ih hr
      cases h
      exact hch
    next heq => exact ih h
    next heq => exact ih h
    next => cases h

theorem faStep1_chain : ∀ {l : List (Nat × Nat)} {ps : PartialSolution}
    {acc : List (Nat × Nat)} {res : PartialSolution × List (Nat × Nat) × Bool},
    faStep1 ps l acc = some res → SolverChain ps.grid res.1.grid := by
  intro l
  induction l with
  | nil =>
    intro ps acc res h
    cases h
    exact SolverChain.refl _
  | cons key rest ih =>
    intro ps acc res h
    unfold faStep1 at h
    split at h
    next heq =>
      rw [Option.bind_eq_some] at h
      obtain ⟨r, _, h⟩ := h
      split at h
      next =>
        have h2 : faStep1 ⟨ps.grid, r.1⟩ rest acc = some res := h
        have hch := ih h2
        exact hch
      next =>
        have h2 : some ((⟨ps.grid, r.1⟩ : PartialSolution), acc, false) = some res := h
        cases h2
        exact SolverChain.refl _
    next heq =>
      rw [Option.bind_eq_some] at h
      obtain ⟨g1, hset, h⟩ := h
      exact SolverChain.step heq (Or.inr (Or.inl ⟨rfl, rfl⟩)) hset (ih h)
    next heq =>
      cases h
      exact SolverChain.refl _
    next heq => cases h
    next heq => exact ih h
    next => cases h

/-- Along a chain a clue cell stays a clue cell. -/
theorem SolverChain.preserve_clue {g g' : SGrid} (h : SolverChain g g')
    {x1 x2 : Nat} {n : Nat} (hx : g.get x1 x2 = some (CellState.Clue n)) :
    ∃ k, g'.get x1 x2 = some (CellState.Clue k) := by
  induction h generalizing n with
  | refl g => exact ⟨n, hx⟩
  | @step g g1 g2 r c old v hold hw hs _ ih =>
    by_cases he : x1 = r ∧ x2 = c
    · obtain ⟨e1, e2⟩ := he
      subst e1; subst e2
      rw [hx] at hold
      cases hold
      rcases hw with ⟨h1, _⟩ | ⟨h1, _⟩ | ⟨h1, _⟩ | ⟨h1, _⟩ | ⟨n0, k, h1, h2⟩
      · cases h1
      · cases h1
      · cases h1
      · cases h1
      · subst h2
        exact ih (Grid.get_set_self hs)
    · exact ih (by rw [Grid.get_set_other hs x1 x2 he]; exact hx)

/-- The `add_clue` neighbor scan never un-promotes: a constrained cell
stays constrained. -/
theorem addClueScanGo_keepC : ∀ {l : List (Nat × Nat)} {g : SGrid}
    {res : SGrid × List (Nat × Nat) × Nat}, addClueScanGo g l = some res →
    ∀ x1 x2, g.get x1 x2 = some CellState.UnknownConstrained →
      res.1.get x1 x2 = some CellState.UnknownConstrained := by
  intro l
  induction l with
  | nil =>
    intro g res h x1 x2 hx
    cases h
    exact hx
  | cons p rest ih =>
    intro g res h x1 x2 hx
    unfold addClueScanGo at h
    split at h
    next heq =>
      rw [Option.bind_eq_some] at h
      obtain ⟨g1, hset, h⟩ := h
      rw [Option.map_eq_some'] at h
      obtain ⟨r, hr, h⟩ := h
      have hg1 : g1.get x1 x2 = some CellState.UnknownConstrained := by
        by_cases he : x1 = p.1 ∧ x2 = p.2
        · obtain ⟨e1, e2⟩ := he
          subst e1; subst e2
          rw [hx] at heq
          cases heq
        · rw [Grid.get_set_other hset x1 x2 he]
          exact hx
      have := ih hr x1 x2 hg1
      cases h
      exact this
    next heq =>
      rw [Option.map_eq_some'] at h
      obtain ⟨r, hr, h⟩ := h
      have := ih hr x1 x2 hx
      cases h
      exact this
    next heq =>
      rw [Option.map_eq_some'] at h
      obtain ⟨r, hr, h⟩ := h
      have := ih hr x1 x2 hx
      cases h
      exact this
    next heq => exact ih h x1 x2 hx
    next heq => exact ih h x1 x2 hx
    next => cases h

/-- Postcondition of the `add_clue` neighbor scan: every scanned neighbor
ends non-`UnknownUnconstrained`, and the previously unconstrained ones
are promoted to `UnknownConstrained`. -/
theorem addClueScanGo_post : ∀ {l : List (Nat × Nat)} {g : SGrid}
    {res : SGrid × List (Nat × Nat) × Nat}, addClueScanGo g l = some res →
    ∀ p ∈ l, res.1.get p.1 p.2 ≠ some CellState.UnknownUnconstrained ∧
      (g.get p.1 p.2 = some CellState.UnknownUnconstrained →
        res.1.get p.1 p.2 = some CellState.UnknownConstrained) := by
  intro l
  induction l with
  | nil =>
    intro g res h p hp
    cases hp
  | cons q rest ih =>
    intro g res h p hp
    have hchain : SolverChain g res.1 := addClueScanGo_chain h
    unfold addClueScanGo at h
    split at h
    next heq =>
      rw [Option.bind_eq_some] at h
      obtain ⟨g1, hset, h⟩ := h
      rw [Option.map_eq_some'] at h
      obtain ⟨r, hr, h⟩ := h
      have hres1 : res.1 = r.1 := by cases h; rfl
      by_cases hpq : p = q
      · subst hpq
        have hc1 : g1.get p.1 p.2 = some CellState.UnknownConstrained :=
          Grid.get_set_self hset
        have hc := addClueScanGo_keepC hr p.1 p.2 hc1
        rw [hres1]
        exact ⟨(by rw [hc]; intro hcon; cases hcon), fun _ => hc⟩
      · have hpr : p ∈ rest := by
          cases hp with
          | head => exact absurd rfl hpq
          | tail _ hmem => exact hmem
        have hg1 : g1.get p.1 p.2 = g.get p.1 p.2 := by
          apply Grid.get_set_other hset
          intro hcon
          apply hpq
          obtain ⟨e1, e2⟩ := hcon
          exact Prod.ext e1 e2
        have := ih hr p hpr
        rw [hres1]
        rw [hg1] at this
        exact this
    next heq =>
      rw [Option.map_eq_some'] at h
      obtain ⟨r, hr, h⟩ := h
      have hres1 : res.1 = r.1 := by cases h; rfl
      by_cases hpq : p = q
      · subst hpq
        have hc := addClueScanGo_keepC hr p.1 p.2 heq
        rw [hres1]
        refine ⟨(by rw [hc]; intro hcon; cases hcon), fun hu => ?_⟩
        rw [heq] at hu
        cases hu
      · have hpr : p ∈ rest := by
          cases hp with
          | head => exact absurd rfl hpq
          | tail _ hmem => exact hmem
        have := ih hr p hpr
        rw [hres1]
        exact this
    next heq =>
      rw [Option.map_eq_some'] at h
      obtain ⟨r, hr, h⟩ := h
      have hres1 : res.1 = r.1 := by cases h; rfl
      by_cases hpq : p = q
      · subst hpq
        have hc := (addClueScanGo_chain hr).preserve_val (Or.inr rfl) heq
        rw [hres1]
        refine ⟨(by rw [hc]; intro hcon; cases hcon), fun hu => ?_⟩
        rw [heq] at hu
        cases hu
      · have hpr : p ∈ rest := by
          cases hp with
          | head => exact absurd rfl hpq
          | tail _ hmem => exact hmem
        have := ih hr p hpr
        rw [hres1]
        exact this
    next heq =>
      by_cases hpq : p = q
      · subst hpq
        have hc := hchain.preserve_val (Or.inl rfl) heq
        refine ⟨(by rw [hc]; intro hcon; cases hcon), fun hu => ?_⟩
        rw [heq] at hu
        cases hu
      · have hpr : p ∈ rest := by
          cases hp with
          | head => exact absurd rfl hpq
          | tail _ hmem => exact hmem
        exact ih h p hpr
    next n heq =>
      by_cases hpq : p = q
      · subst hpq
        obtain ⟨k, hc⟩ := hchain.preserve_clue heq
        refine ⟨(by rw [hc]; intro hcon; cases hcon), fun hu => ?_⟩
        rw [heq] at hu
        cases hu
      · have hpr : p ∈ rest := by
          cases hp with
          | head => exact absurd rfl hpq
          | tail _ hmem => exact hmem
        exact ih h p hpr
    next => cases h

/-- The mine count accumulated by the `add_clue` neighbor scan is the
number of scanned neighbors currently `Mine`. -/
theorem addClueScanGo_mines : ∀ {l : List (Nat × Nat)} {g : SGrid}
    {res : SGrid × List (Nat × Nat) × Nat}, addClueScanGo g l = some res →
    res.2.2 = (l.filter fun p =>
      decide (g.get p.1 p.2 = some CellState.Mine)).length := by
  intro l
  induction l with
  | nil =>
    intro g res h
    cases h
    rfl
  | cons p rest ih =>
    intro g res h
    unfold addClueScanGo at h
    split at h
    next heq =>
      rw [Option.bind_eq_some] at h
      obtain ⟨g1, hset, h⟩ := h
      rw [Option.map_eq_some'] at h
      obtain ⟨r, hr, h⟩ := h
      have hfilt : rest.filter (fun q => decide (g1.get q.1 q.2 = some CellState.Mine)) =
          rest.filter (fun q => decide (g.get q.1 q.2 = some CellState.Mine)) := by
        apply List.filter_congr
        intro q _
        by_cases he : q.1 = p.1 ∧ q.2 = p.2
        · have hq1 : g1.get q.1 q.2 = some CellState.UnknownConstrained := by
            rw [he.1, he.2]
            exact Grid.get_set_self hset
          have hq0 : g.get q.1 q.2 = some CellState.UnknownUnconstrained := by
            rw [he.1, he.2]
            exact heq
          rw [hq1, hq0]
          simp
        · rw [Grid.get_set_other hset q.1 q.2 he]
      have hih := ih hr
      rw [hfilt] at hih
      cases h
      simpa [List.filter_cons, heq] using hih
    next heq =>
      rw [Option.map_eq_some'] at h
      obtain ⟨r, hr, h⟩ := h
      have hih := ih hr
      cases h
      simpa [List.filter_cons, heq] using hih
    next heq =>
      rw [Option.map_eq_some'] at h
      obtain ⟨r, hr, h⟩ := h
      have hih := ih hr
      cases h
      simp only [List.filter_cons, heq]
      simp
      omega
    next heq =>
      have hih := ih h
      rw [hih]
      simp [List.filter_cons, heq]
    next n heq =>
      have hih := ih h
      rw [hih]
      simp [List.filter_cons, heq]
    next => cases h

/-! ## Queue monotonicity and pending actions of the worklist -/

theorem tryEnqueue_mono {iq : List (Nat × Nat)} {q : List ((Nat × Nat) × UpdateAction)}
    {k : Nat × Nat} {a : UpdateAction} {e : (Nat × Nat) × UpdateAction}
    (he : e ∈ q) : e ∈ (tryEnqueue iq q k a).2 := by
  unfold tryEnqueue
  split
  · exact he
  · exact List.mem_append_left _ he

theorem enqueueAll_mono {a : UpdateAction} : ∀ {keys : List (Nat × Nat)}
    {st : List (Nat × Nat) × List ((Nat × Nat) × UpdateAction)}
    {e : (Nat × Nat) × UpdateAction},
    e ∈ st.2 → e ∈ (enqueueAll a st keys).2 := by
  intro keys
  induction keys with
  | nil =>
    intro st e he
    obtain ⟨iq, q⟩ := st
    exact he
  | cons k rest ih =>
    intro st e he
    obtain ⟨iq, q⟩ := st
    exact ih (tryEnqueue_mono he)

theorem toMineNbrs_qmono : ∀ {l : List (Nat × Nat)} {g : SGrid}
    {iq : List (Nat × Nat)} {q : List ((Nat × Nat) × UpdateAction)}
    {res : SGrid × List (Nat × Nat) × List ((Nat × Nat) × UpdateAction)},
    toMineNbrs g iq q l = some res →
    ∀ e ∈ q, e ∈ res.2.2 := by
  intro l
  induction l with
  | nil =>
    intro g iq q res h e he
    cases h
    exact he
  | cons p rest ih =>
    intro g iq q res h e he
    unfold toMineNbrs at h
    split at h
    next v heq =>
      split at h
      next hv =>
        rw [Option.bind_eq_some] at h
        obtain ⟨st, hst, h⟩ := h
        rw [Option.bind_eq_some] at h
        obtain ⟨g1, hset, h⟩ := h
        apply ih h
        split at hst
        next =>
          split at hst
          next => cases hst
          next =>
            cases hst
            exact List.mem_append_left _ he
        next =>
          cases hst
          exact he
      next hv => exact ih h e he
    next heq2 => exact ih h e he
    next => cases h

theorem checkEmptiesNbrs_qmono : ∀ {l : List (Nat × Nat)} {g : SGrid}
    {st : List (Nat × Nat) × List ((Nat × Nat) × UpdateAction)}
    {res : List (Nat × Nat) × List ((Nat × Nat) × UpdateAction)},
    checkEmptiesNbrs g st l = some res →
    ∀ e ∈ st.2, e ∈ res.2 := by
  intro l
  induction l with
  | nil =>
    intro g st res h e he
    obtain ⟨iq, q⟩ := st
    cases h
    exact he
  | cons p rest ih =>
    intro g st res h e he
    obtain ⟨iq, q⟩ := st
    unfold checkEmptiesNbrs at h
    split at h
    next heq => exact ih h e (tryEnqueue_mono he)
    next heq => cases h
    next heq2 => exact ih h e he
    next => cases h

theorem toEmptyNbrs_qmono : ∀ {l : List (Nat × Nat)} {g : SGrid}
    {st : List (Nat × Nat) × List ((Nat × Nat) × UpdateAction)}
    {res : List (Nat × Nat) × List ((Nat × Nat) × UpdateAction)},
    toEmptyNbrs g st l = some res →
    ∀ e ∈ st.2, e ∈ res.2 := by
  intro l
  induction l with
  | nil =>
    intro g st res h e he
    obtain ⟨iq, q⟩ := st
    cases h
    exact he
  | cons p rest ih =>
    intro g st res h e he
    obtain ⟨iq, q⟩ := st
    unfold toEmptyNbrs at h
    split at h
    next v heq =>
      split at h
      next hv => exact ih h e (tryEnqueue_mono he)
      next hv => exact ih h e he
    next heq2 => exact ih h e he
    next => cases h

theorem bfsStep_qmono {g : SGrid} {p : Nat × Nat} {a : UpdateAction}
    {q : List ((Nat × Nat) × UpdateAction)} {iq : List (Nat × Nat)}
    {res : SGrid × List ((Nat × Nat) × UpdateAction) × List (Nat × Nat)}
    (h : bfsStep g p a q iq = some res) :
    ∀ e ∈ q, e ∈ res.2.1 := by
  intro e he
  cases a with
  | CheckIfClueFindMines =>
    simp only [bfsStep] at h
    split at h
    next v heq =>
      obtain ⟨v2, hv2, h⟩ := Option.bind_eq_some.mp h
      cases hv2
      obtain ⟨unknowns, _, h⟩ := Option.bind_eq_some.mp h
      split at h
      next hlt => cases h
      next hlt =>
        split at h
        next hleneq =>
          obtain ⟨g1, hset, h⟩ := Option.bind_eq_some.mp h
          cases h
          exact enqueueAll_mono he
        next hleneq =>
          cases h
          exact he
    next x heq =>
      obtain ⟨u, hu, h⟩ := Option.bind_eq_some.mp h
      cases hu
  | ToMine =>
    simp only [bfsStep] at h
    split at h
    next heq =>
      obtain ⟨u, hu, h⟩ := Option.bind_eq_some.mp h
      cases hu
      obtain ⟨g1, hset, h⟩ := Option.bind_eq_some.mp h
      obtain ⟨r, hr, h⟩ := Option.bind_eq_some.mp h
      cases h
      exact toMineNbrs_qmono hr e he
    next x heq =>
      obtain ⟨u, hu, h⟩ := Option.bind_eq_some.mp h
      cases hu
  | CheckIfClueFindEmpties =>
    simp only [bfsStep] at h
    split at h
    next heq =>
      obtain ⟨u, hu, h⟩ := Option.bind_eq_some.mp h
      cases hu
      obtain ⟨st, hst, h⟩ := Option.bind_eq_some.mp h
      cases h
      exact checkEmptiesNbrs_qmono hst e he
    next x heq =>
      obtain ⟨u, hu, h⟩ := Option.bind_eq_some.mp h
      cases hu
  | ToEmpty =>
    simp only [bfsStep] at h
    split at h
    next heq =>
      obtain ⟨u, hu, h⟩ := Option.bind_eq_some.mp h
      cases hu
      obtain ⟨g1, hset, h⟩ := Option.bind_eq_some.mp h
      obtain ⟨st, hst, h⟩ := Option.bind_eq_some.mp h
      cases h
      exact toEmptyNbrs_qmono hst e he
    next x heq =>
      obtain ⟨u, hu, h⟩ := Option.bind_eq_some.mp h
      cases hu

theorem bfsStep_toEmpty_grid {g : SGrid} {p : Nat × Nat}
    {q : List ((Nat × Nat) × UpdateAction)} {iq : List (Nat × Nat)}
    {res : SGrid × List ((Nat × Nat) × UpdateAction) × List (Nat × Nat)}
    (h : bfsStep g p UpdateAction.ToEmpty q iq = some res) :
    res.1.get p.1 p.2 = some CellState.Empty := by
  simp only [bfsStep] at h
  split at h
  next heq =>
    obtain ⟨u, hu, h⟩ := Option.bind_eq_some.mp h
    cases hu
    obtain ⟨g1, hset, h⟩ := Option.bind_eq_some.mp h
    obtain ⟨st, hst, h⟩ := Option.bind_eq_some.mp h
    cases h
    exact Grid.get_set_self hset
  next x heq =>
    obtain ⟨u, hu, h⟩ := Option.bind_eq_some.mp h
    cases hu

theorem bfsStep_toMine_grid {g : SGrid} {p : Nat × Nat}
    {q : List ((Nat × Nat) × UpdateAction)} {iq : List (Nat × Nat)}
    {res : SGrid × List ((Nat × Nat) × UpdateAction) × List (Nat × Nat)}
    (h : bfsStep g p UpdateAction.ToMine q iq = some res) :
    res.1.get p.1 p.2 = some CellState.Mine := by
  simp only [bfsStep] at h
  split at h
  next heq =>
    obtain ⟨u, hu, h⟩ := Option.bind_eq_some.mp h
    cases hu
    obtain ⟨g1, hset, h⟩ := Option.bind_eq_some.mp h
    obtain ⟨r, hr, h⟩ := Option.bind_eq_some.mp h
    cases h
    exact (toMineNbrs_chain hr).preserve_val (Or.inr rfl) (Grid.get_set_self hset)
  next x heq =>
    obtain ⟨u, hu, h⟩ := Option.bind_eq_some.mp h
    cases hu

/-- Every cell scheduled `ToEmpty` (resp. `ToMine`) in the worklist ends
`Empty` (resp. `Mine`) when the run completes. -/
theorem bfsRun_pending : ∀ {fuel : Nat} {g : SGrid}
    {q : List ((Nat × Nat) × UpdateAction)} {iq : List (Nat × Nat)} {g' : SGrid},
    bfsRun fuel g q iq = some g' →
    ∀ (p : Nat × Nat) (a : UpdateAction) (v : CellState),
    ((a = UpdateAction.ToEmpty ∧ v = CellState.Empty) ∨
      (a = UpdateAction.ToMine ∧ v = CellState.Mine)) →
    (p, a) ∈ q → g'.get p.1 p.2 = some v := by
  intro fuel
  induction fuel with
  | zero => intro g q iq g' h; cases h
  | succ n ih =>
    intro g q iq g' h p a v hav hp
    cases q with
    | nil => cases hp
    | cons e rest =>
      unfold bfsRun at h
      rw [Option.bind_eq_some] at h
      obtain ⟨r, hr, h⟩ := h
      by_cases hpe : (p, a) = e
      · subst hpe
        rcases hav with ⟨ha, hv⟩ | ⟨ha, hv⟩ <;> subst ha <;> subst hv
        · exact (bfsRun_chain h).preserve_val (Or.inl rfl) (bfsStep_toEmpty_grid hr)
        · exact (bfsRun_chain h).preserve_val (Or.inr rfl) (bfsStep_toMine_grid hr)
      · have hrest : (p, a) ∈ rest := by
          cases hp with
          | head => exact absurd rfl hpe
          | tail _ hmem => exact hmem
        exact ih h p a v hav (bfsStep_qmono hr _ hrest)

/-- Every seed of `breadth_first_update` with action `ToEmpty`
(resp. `ToMine`) ends `Empty` (resp. `Mine`). -/
theorem breadth_first_update_pending {fuel : Nat} {g g' : SGrid}
    {a : UpdateAction} {seed : List (Nat × Nat)}
    (h : breadth_first_update fuel g a seed = some g')
    {p : Nat × Nat} (hp : p ∈ seed) {v : CellState}
    (hav : (a = UpdateAction.ToEmpty ∧ v = CellState.Empty) ∨
      (a = UpdateAction.ToMine ∧ v = CellState.Mine)) :
    g'.get p.1 p.2 = some v := by
  unfold breadth_first_update at h
  exact bfsRun_pending h p a v hav
    (List.mem_map.mpr ⟨p, List.mem_dedup.mpr hp, rfl⟩)

/-! ## The reachable-state invariants -/

theorem addCluePre_chain {fuel : Nat} {s s1 : PartialSolution} {cell : Nat × Nat}
    (h : addCluePre fuel s cell = some s1) : SolverChain s.grid s1.grid := by
  unfold addCluePre at h
  split at h
  next heq => cases h
  next heq => cases h
  next heq =>
    rw [Option.map_eq_some'] at h
    obtain ⟨g, hg, h⟩ := h
    cases h
    unfold breadth_first_update at hg
    exact bfsRun_chain hg
  next heq =>
    cases h
    exact SolverChain.refl _
  next => cases h

/-- The write of the new `Clue` cell itself preserves both invariants,
provided no neighbor of the cell is still `UnknownUnconstrained` (the
scan's postcondition). -/
theorem sset_clue_inv {g g1 : SGrid} {r c k : Nat}
    (hset : g.sset r c (CellState.Clue k) = some g1)
    (hnbr : ∀ p ∈ neighborsOf g.w g.h r c,
      g.get p.1 p.2 ≠ some CellState.UnknownUnconstrained)
    (hJ : Jprop g) (hc : counterMatches g) : Jprop g1 ∧ counterMatches g1 := by
  obtain ⟨w1, h1, _⟩ := sset_dims hset
  constructor
  · intro r2 c2 n hclue p hp hpU
    rw [w1, h1] at hp
    have hpU0 : g.get p.1 p.2 = some CellState.UnknownUnconstrained := by
      rcases Grid.get_set_cases hset p.1 p.2 with hcs | hcs
      · rw [hpU] at hcs
        cases hcs
      · rw [← hcs]
        exact hpU
    by_cases he : r2 = r ∧ c2 = c
    · obtain ⟨e1, e2⟩ := he
      subst e1; subst e2
      exact hnbr p hp hpU0
    · rw [Grid.get_set_other hset r2 c2 he] at hclue
      exact hJ r2 c2 n hclue p hp hpU0
  · obtain ⟨old, cnt, hget, hn, he⟩ := Grid.set_spec hset
    obtain ⟨_, _, hdata⟩ := Grid.get_bounds hget
    have hcount := countP_set_val
      (fun cst => decide (cst = CellState.UnknownUnconstrained))
      g.data (r * g.w + c) old (CellState.Clue k) hdata
    unfold counterMatches at hc ⊢
    subst he
    simp only
    simp only [reduceCtorEq, decide_False] at hcount
    cases old with
    | UnknownUnconstrained =>
      unfold Counters.notify_change at hn
      by_cases hz : g.counters.unconstrained_cells = 0
      · simp [hz] at hn
      · simp only [hz, if_false, if_neg, Option.some_bind] at hn
        cases hn
        simp at hcount
        simp only
        omega
    | Mine =>
      unfold Counters.notify_change at hn
      cases hn
      simp at hcount
      omega
    | UnknownConstrained =>
      unfold Counters.notify_change at hn
      simp only [Option.some_bind] at hn
      cases hn
      simp at hcount
      omega
    | Empty =>
      unfold Counters.notify_change at hn
      simp only [Option.some_bind] at hn
      cases hn
      simp at hcount
      omega
    | Clue n0 =>
      unfold Counters.notify_change at hn
      simp only [Option.some_bind] at hn
      cases hn
      simp at hcount
      omega

/-- A completed `add_clue` preserves both invariants. -/
theorem add_clue_inv {fuel : Nat} {s s' : PartialSolution} {cell : Nat × Nat}
    {raw : Nat} (h : add_clue fuel s cell raw = some s')
    (hJ : Jprop s.grid) (hc : counterMatches s.grid) :
    Jprop s'.grid ∧ counterMatches s'.grid := by
  unfold add_clue at h
  rw [Option.bind_eq_some] at h
  obtain ⟨s1, h1, h⟩ := h
  have hch1 := addCluePre_chain h1
  have hJ1 := hch1.preserve_J hJ
  have hc1 := hch1.preserve_counter hc
  rw [Option.bind_eq_some] at h
  obtain ⟨rb, hrb, h⟩ := h
  unfold addClueScan at hrb
  rw [Option.map_eq_some'] at hrb
  obtain ⟨r, hr, hrb⟩ := hrb
  have hch2 := addClueScanGo_chain hr
  have hJ2 := hch2.preserve_J hJ1
  have hc2 := hch2.preserve_counter hc1
  obtain ⟨w2, h2, _⟩ := hch2.dims
  subst hrb
  dsimp only at h
  split at h
  next hraw => cases h
  next hraw =>
    rw [Option.bind_eq_some] at h
    obtain ⟨g3, hset, h⟩ := h
    have hnbr : ∀ p ∈ neighborsOf r.1.w r.1.h cell.1 cell.2,
        r.1.get p.1 p.2 ≠ some CellState.UnknownUnconstrained := by
      intro p hp
      rw [w2, h2] at hp
      exact (addClueScanGo_post hr p hp).1
    obtain ⟨hJ3, hc3⟩ := sset_clue_inv hset hnbr hJ2 hc2
    split at h
    next hne =>
      split at h
      next hz =>
        rw [Option.map_eq_some'] at h
        obtain ⟨g4, hbfu, hfin⟩ := h
        cases hfin
        unfold breadth_first_update at hbfu
        have hch4 := bfsRun_chain hbfu
        exact ⟨hch4.preserve_J hJ3, hch4.preserve_counter hc3⟩
      next hz =>
        split at h
        next hlen =>
          rw [Option.map_eq_some'] at h
          obtain ⟨g4, hbfu, hfin⟩ := h
          cases hfin
          unfold breadth_first_update at hbfu
          have hch4 := bfsRun_chain hbfu
          exact ⟨hch4.preserve_J hJ3, hch4.preserve_counter hc3⟩
        next hlen =>
          cases h
          exact ⟨hJ3, hc3⟩
    next hne =>
      cases h
      exact ⟨hJ3, hc3⟩

/-- A completed reconciliation call returns the solver state produced by
its step 1 (every later phase commits through the caller's callback
only), so its grid evolves by allowed writes alone. -/
theorem findAcomodating_chain {σ : Type} {commit : σ → Nat → Nat → Bool → Option σ}
    {ps : PartialSolution} {rng : List Nat} {revealed : List (Nat × Nat)}
    {keyOrders : List (List Nat)} {st : σ}
    {res : PartialSolution × σ × Bool × List Nat}
    (h : findAcomodatingSolution σ commit ps rng revealed keyOrders st = some res) :
    SolverChain ps.grid res.1.grid := by
  unfold findAcomodatingSolution at h
  obtain ⟨s1, hs1, h⟩ := Option.bind_eq_some.mp h
  have hch := faStep1_chain hs1
  split at h
  next hfalse =>
    cases h
    exact hch
  next hfalse =>
    obtain ⟨combs, hcombs, h⟩ := Option.bind_eq_some.mp h
    dsimp only at h
    split at h
    next combo hcombo =>
      obtain ⟨y, hy, h⟩ := Option.bind_eq_some.mp h
      obtain ⟨st2, hst2, h⟩ := Option.bind_eq_some.mp h
      split at h
      next => cases h
      next =>
        split at h
        next => cases h
        next =>
          obtain ⟨fin, hfin, h⟩ := Option.bind_eq_some.mp h
          split at h
          next =>
            cases h
            exact hch
          next => cases h
    next hcombo =>
      obtain ⟨y, hy, h⟩ := Option.bind_eq_some.mp h
      obtain ⟨st2, hst2, h⟩ := Option.bind_eq_some.mp h
      split at h
      next => cases h
      next =>
        split at h
        next => cases h
        next =>
          obtain ⟨fin, hfin, h⟩ := Option.bind_eq_some.mp h
          split at h
          next =>
            cases h
            exact hch
          next => cases h

theorem countP_replicate_self {α : Type} (p : α → Bool) (a : α) (n : Nat)
    (hp : p a = true) : (List.replicate n a).countP p = n := by
  induction n with
  | zero => rfl
  | succ k ih => simp [List.replicate, List.countP_cons, hp, ih]

/-- Both invariants hold in every reachable solver state. -/
theorem reach_inv {s : PartialSolution} (h : Reach s) :
    Jprop s.grid ∧ counterMatches s.grid := by
  induction h with
  | init w h m =>
    constructor
    · intro r c n hclue p hp hpU
      unfold PartialSolution.new Grid.get at hclue
      simp only at hclue
      split at hclue
      · have := List.get?_eq_some.mp hclue
        rw [List.get?_eq_get (by simpa using this.1)] at hclue
        simp at hclue
      · cases hclue
    · unfold counterMatches PartialSolution.new
      simp only
      rw [countP_replicate_self]
      simp
  | clue hreach hstep ih => exact add_clue_inv hstep ih.1 ih.2
  | acomodate hreach hstep ih =>
    have hch := findAcomodating_chain hstep
    exact ⟨hch.preserve_J ih.1, hch.preserve_counter ih.2⟩

/-! ## Claim theorems on plain evaluations -/

/-- C2.  The claim says `rows()` yields exactly `h` slices.  The iterator
of the source stops one row early (`next >= data.len()`): the 2×2 grid
yields a single slice and the 2×1 grid yields none.  Both evaluations
are of the embedded `Grid::rows` at well-formed grids with `w ≥ 1`,
`h ≥ 1`. -/
theorem rows_drops_last_row :
    (Grid.rows { counters := (), data := [0, 1, 2, 3], w := 2, h := 2 } : List (List Nat)) =
      [[0, 1]] ∧
    (Grid.rows { counters := (), data := [0, 1], w := 2, h := 1 } : List (List Nat)) = [] := by
  exact ⟨rfl, rfl⟩

/-- C1.  When every mine-count combination fails the step-3
budget/capacity filter, `find_acomodating_solution` does not return
failure: on `c1psA` (surviving combinations provably empty) it completes
with `true`, never having selected a combination; on `c1psB` it panics on
the `unconstrained_cells >= remaining_mines` assertion (modelled as
`none`) instead of returning `false`. -/
theorem no_surviving_combination_still_succeeds :
    faSurviving c1psA.grid.counters [[1]] = some [] ∧
    (findAcomodatingSolution (List (Nat × Nat × Bool)) recCommit c1psA [0, 0, 0] []
        [[1]] []).map (fun r => r.2.2.1) = some true ∧
    findAcomodatingSolution (List (Nat × Nat × Bool)) recCommit c1psB [0, 0, 0] [(0, 0)]
        [[2]] [] = none := by
  exact ⟨rfl, rfl, rfl⟩

/-- C3, counterexample.  On the degenerate topology with no unknowns and
one clue owing a mine over an empty adjacency, `find_solutions` returns
the empty assignment even though it satisfies no clue: the returned set
is not the set of clue-satisfying assignments. -/
theorem find_solutions_unchecked_clue :
    find_solutions 5 ⟨0, [⟨1, []⟩]⟩ = some [[]] ∧
    satisfiesAll ⟨0, [⟨1, []⟩]⟩ [] = false := by
  exact ⟨rfl, rfl⟩

/-- C5, counterexample.  The state after revealing clue 1 on a 1×2
one-mine board is reachable; its cell (0,0) is `Clue 0` yet has one
neighbor that is `Mine`-or-open (the deduced mine at (0,1)), so the
"exactly n" clause of the claim fails. -/
theorem clue_count_not_mine_or_open :
    Reach c5state ∧
    c5state.grid.get 0 0 = some (CellState.Clue 0) ∧
    mineOrOpenCount c5state 0 0 = 1 := by
  have hstep : add_clue 20 (PartialSolution.new 2 1 1) (0, 0) 1 = some c5state := rfl
  exact ⟨Reach.clue (Reach.init 2 1 1) hstep, rfl, rfl⟩

/-- C8.  Two runs from the identical minefield `c8mf`, with the identical
injected generator stream and the identical single reveal at (0,1),
produce different board contents once the unspecified `HashMap` key
iteration order (the `keyOrders` oracle) differs: cell (0,0) ends as a
hidden mine in one run and as a hidden empty in the other, while both
runs report survival. -/
theorem same_seed_different_board :
    (Minefield.reveal 60 [0, 0, 0] [[1, 2]] c8mf 0 1).map
        (fun x => (x.1.grid.get 0 0, x.2.1)) =
      some (some (Tile.Hidden Content.Mine UserMarking.None), true) ∧
    (Minefield.reveal 60 [0, 0, 0] [[2, 1]] c8mf 0 1).map
        (fun x => (x.1.grid.get 0 0, x.2.1)) =
      some (some (Tile.Hidden Content.Empty UserMarking.None), true) := by
  exact ⟨rfl, rfl⟩

/-- C10.  Revealing a hidden cell whose marking is `Flag` returns `true`
and leaves the whole minefield (grid, counters, solver) and the generator
untouched, whatever the flagged cell's content: `find_revealed_cells`
yields no cells, so no reconciliation, no reveal and no component
recomputation happens. -/
theorem reveal_flagged_noop (fuel : Nat) (rng : List Nat) (keyOrders : List (List Nat))
    (m : Minefield) (row col : Nat) (cont : Content)
    (h : m.grid.get row col = some (Tile.Hidden cont UserMarking.Flag)) :
    Minefield.reveal fuel rng keyOrders m row col = some (m, true, rng) := by
  have hc : find_revealed_cells m row col = some [] := by
    unfold find_revealed_cells
    rw [h]
    cases cont <;> rfl
  unfold Minefield.reveal
  rw [hc]
  simp

/-- C10, witness: the flagged mine of `flaggedMf`. -/
theorem reveal_flagged_noop_witness :
    flaggedMf.grid.get 0 0 = some (Tile.Hidden Content.Mine UserMarking.Flag) ∧
    Minefield.reveal 3 [1, 2] [] flaggedMf 0 0 = some (flaggedMf, true, [1, 2]) :=
  ⟨rfl, reveal_flagged_noop 3 [1, 2] [] flaggedMf 0 0 Content.Mine rfl⟩

/-- Helper: evaluation of one `switch_mark` on a hidden tile whose
counter update succeeds. -/
theorem switch_mark_eval {m : Minefield} {row col : Nat} {c : Content}
    {mk0 : UserMarking} {k : MinefieldCounters}
    (h : m.grid.get row col = some (Tile.Hidden c mk0))
    (hn : MinefieldCounters.notify_change m.grid.counters (Tile.Hidden c mk0)
        (Tile.Hidden c (markCycle mk0)) = some k) :
    switch_mark m row col =
      some ⟨⟨k, m.grid.data.set (row * m.grid.w + col) (Tile.Hidden c (markCycle mk0)),
        m.grid.w, m.grid.h⟩, m.mine_count, m.sol⟩ := by
  unfold switch_mark
  rw [h]
  show (m.grid.mset row col (Tile.Hidden c (markCycle mk0))).map
    (fun g => { m with grid := g }) = _
  unfold MGrid.mset Grid.set
  rw [h]
  simp only [Option.some_bind]
  rw [hn]
  rfl

/-- C9.  Three `switch_mark` applications on any cell restore the whole
minefield exactly (marking cycle none → flag → question-mark → none, the
hidden content untouched); a `switch_mark` on a revealed tile returns the
minefield unchanged; and no `switch_mark` ever modifies the solver state
or the mine count.  The `hf` hypothesis rules out a board whose flag
counter would underflow (it always holds on boards maintained through
`Grid::set`). -/
theorem switch_mark_triple_cycle (m : Minefield) (row col : Nat)
    (hex : (m.grid.get row col).isSome = true)
    (hf : ∀ cont, m.grid.get row col = some (Tile.Hidden cont UserMarking.Flag) →
      1 ≤ m.grid.counters.flag_count) :
    ((switch_mark m row col).bind fun m1 =>
      (switch_mark m1 row col).bind fun m2 => switch_mark m2 row col) = some m ∧
    (∀ n, m.grid.get row col = some (Tile.Revealed n) → switch_mark m row col = some m) ∧
    (∀ m', switch_mark m row col = some m' →
      m'.sol = m.sol ∧ m'.mine_count = m.mine_count) := by
  obtain ⟨tile, h⟩ := Option.isSome_iff_exists.mp hex
  have hsolpart : ∀ m', switch_mark m row col = some m' →
      m'.sol = m.sol ∧ m'.mine_count = m.mine_count := by
    intro m' hm'
    unfold switch_mark at hm'
    rw [h] at hm'
    cases tile with
    | Revealed n =>
      have hm2 : some m = some m' := hm'
      cases hm2
      exact ⟨rfl, rfl⟩
    | Hidden c mk =>
      have hm2 : (m.grid.mset row col (Tile.Hidden c (markCycle mk))).map
          (fun g => { m with grid := g }) = some m' := hm'
      cases hmm : m.grid.mset row col (Tile.Hidden c (markCycle mk)) with
      | none => rw [hmm] at hm2; cases hm2
      | some g1 =>
        rw [hmm] at hm2
        cases hm2
        exact ⟨rfl, rfl⟩
  cases tile with
  | Revealed n =>
    have hs : switch_mark m row col = some m := by
      unfold switch_mark
      rw [h]
    refine ⟨?_, fun _ _ => hs, hsolpart⟩
    rw [hs]
    simp only [Option.some_bind]
    rw [hs]
    simp only [Option.some_bind]
    exact hs
  | Hidden c mk =>
    refine ⟨?_, ?_, hsolpart⟩
    case refine_2 =>
      intro n hn
      rw [h] at hn
      cases hn
    obtain ⟨grid, mc, sol⟩ := m
    obtain ⟨cnt, data, w, hh⟩ := grid
    obtain ⟨f, rv⟩ := cnt
    obtain ⟨hr, hc, hd⟩ := Grid.get_bounds h
    simp only at h hd hr hc
    cases mk with
    | None =>
      have h1 := switch_mark_eval (m := ⟨⟨⟨f, rv⟩, data, w, hh⟩, mc, sol⟩)
        (k := ⟨f + 1, rv⟩) h rfl
      rw [h1]
      dsimp only [markCycle]
      simp only [Option.some_bind]
      have hg1 : Grid.get (⟨⟨f + 1, rv⟩, data.set (row * w + col)
          (Tile.Hidden c UserMarking.Flag), w, hh⟩ : MGrid) row col =
          some (Tile.Hidden c UserMarking.Flag) :=
        Grid.get_build (⟨⟨f, rv⟩, data, w, hh⟩ : MGrid) _ _ h
      have h2 := switch_mark_eval
        (m := ⟨⟨⟨f + 1, rv⟩, data.set (row * w + col) (Tile.Hidden c UserMarking.Flag),
          w, hh⟩, mc, sol⟩)
        (k := ⟨f + 1 - 1, rv⟩) hg1 (by
          simp [MinefieldCounters.notify_change, markCycle])
      rw [h2]
      dsimp only [markCycle]
      simp only [Option.some_bind]
      have hg2 : Grid.get (⟨⟨f + 1 - 1, rv⟩, (data.set (row * w + col)
          (Tile.Hidden c UserMarking.Flag)).set (row * w + col)
          (Tile.Hidden c UserMarking.QuestionMark), w, hh⟩ : MGrid) row col =
          some (Tile.Hidden c UserMarking.QuestionMark) :=
        Grid.get_build ((⟨⟨f + 1, rv⟩, data.set (row * w + col)
          (Tile.Hidden c UserMarking.Flag), w, hh⟩ : MGrid)) _ _ hg1
      have h3 := switch_mark_eval
        (m := ⟨⟨⟨f + 1 - 1, rv⟩, (data.set (row * w + col)
          (Tile.Hidden c UserMarking.Flag)).set (row * w + col)
          (Tile.Hidden c UserMarking.QuestionMark), w, hh⟩, mc, sol⟩)
        (k := ⟨f + 1 - 1, rv⟩) hg2 rfl
      rw [h3]
      dsimp only [markCycle]
      simp only [List.set_set]
      rw [list_set_self _ _ _ hd]
      simp
    | Flag =>
      have hfpos : 1 ≤ f := hf c h
      have hfz : ¬ f = 0 := by omega
      have h1 := switch_mark_eval (m := ⟨⟨⟨f, rv⟩, data, w, hh⟩, mc, sol⟩)
        (k := ⟨f - 1, rv⟩) h (by
          simp [MinefieldCounters.notify_change, markCycle, hfz])
      rw [h1]
      dsimp only [markCycle]
      simp only [Option.some_bind]
      have hg1 : Grid.get (⟨⟨f - 1, rv⟩, data.set (row * w + col)
          (Tile.Hidden c UserMarking.QuestionMark), w, hh⟩ : MGrid) row col =
          some (Tile.Hidden c UserMarking.QuestionMark) :=
        Grid.get_build (⟨⟨f, rv⟩, data, w, hh⟩ : MGrid) _ _ h
      have h2 := switch_mark_eval
        (m := ⟨⟨⟨f - 1, rv⟩, data.set (row * w + col)
          (Tile.Hidden c UserMarking.QuestionMark), w, hh⟩, mc, sol⟩)
        (k := ⟨f - 1, rv⟩) hg1 rfl
      rw [h2]
      dsimp only [markCycle]
      simp only [Option.some_bind]
      have hg2 : Grid.get (⟨⟨f - 1, rv⟩, (data.set (row * w + col)
          (Tile.Hidden c UserMarking.QuestionMark)).set (row * w + col)
          (Tile.Hidden c UserMarking.None), w, hh⟩ : MGrid) row col =
          some (Tile.Hidden c UserMarking.None) :=
        Grid.get_build ((⟨⟨f - 1, rv⟩, data.set (row * w + col)
          (Tile.Hidden c UserMarking.QuestionMark), w, hh⟩ : MGrid)) _ _ hg1
      have h3 := switch_mark_eval
        (m := ⟨⟨⟨f - 1, rv⟩, (data.set (row * w + col)
          (Tile.Hidden c UserMarking.QuestionMark)).set (row * w + col)
          (Tile.Hidden c UserMarking.None), w, hh⟩, mc, sol⟩)
        (k := ⟨f - 1 + 1, rv⟩) hg2 rfl
      rw [h3]
      dsimp only [markCycle]
      simp only [List.set_set]
      rw [list_set_self _ _ _ hd]
      have hff : f - 1 + 1 = f := by omega
      rw [hff]
    | QuestionMark =>
      have h1 := switch_mark_eval (m := ⟨⟨⟨f, rv⟩, data, w, hh⟩, mc, sol⟩)
        (k := ⟨f, rv⟩) h rfl
      rw [h1]
      dsimp only [markCycle]
      simp only [Option.some_bind]
      have hg1 : Grid.get (⟨⟨f, rv⟩, data.set (row * w + col)
          (Tile.Hidden c UserMarking.None), w, hh⟩ : MGrid) row col =
          some (Tile.Hidden c UserMarking.None) :=
        Grid.get_build (⟨⟨f, rv⟩, data, w, hh⟩ : MGrid) _ _ h
      have h2 := switch_mark_eval
        (m := ⟨⟨⟨f, rv⟩, data.set (row * w + col)
          (Tile.Hidden c UserMarking.None), w, hh⟩, mc, sol⟩)
        (k := ⟨f + 1, rv⟩) hg1 rfl
      rw [h2]
      dsimp only [markCycle]
      simp only [Option.some_bind]
      have hg2 : Grid.get (⟨⟨f + 1, rv⟩, (data.set (row * w + col)
          (Tile.Hidden c UserMarking.None)).set (row * w + col)
          (Tile.Hidden c UserMarking.Flag), w, hh⟩ : MGrid) row col =
          some (Tile.Hidden c UserMarking.Flag) :=
        Grid.get_build ((⟨⟨f, rv⟩, data.set (row * w + col)
          (Tile.Hidden c UserMarking.None), w, hh⟩ : MGrid)) _ _ hg1
      have h3 := switch_mark_eval
        (m := ⟨⟨⟨f + 1, rv⟩, (data.set (row * w + col)
          (Tile.Hidden c UserMarking.None)).set (row * w + col)
          (Tile.Hidden c UserMarking.Flag), w, hh⟩, mc, sol⟩)
        (k := ⟨f + 1 - 1, rv⟩) hg2 (by
          simp [MinefieldCounters.notify_change, markCycle])
      rw [h3]
      dsimp only [markCycle]
      simp only [List.set_set]
      rw [list_set_self _ _ _ hd]
      simp

/-- C9, witness: the unmarked hidden tile of a 1×1 minefield. -/
theorem switch_mark_triple_cycle_witness :
    ((Grid.get ({ counters := { flag_count := 0, revealed_count := 0 }
                  data := [Tile.Hidden Content.Empty UserMarking.None]
                  w := 1, h := 1 } : MGrid)
        0 0).isSome = true) ∧
    ((switch_mark { grid := { counters := { flag_count := 0, revealed_count := 0 }
                              data := [Tile.Hidden Content.Empty UserMarking.None]
                              w := 1, h := 1 }
                    mine_count := 0, sol := PartialSolution.new 1 1 0 } 0 0).bind fun m1 =>
      (switch_mark m1 0 0).bind fun m2 => switch_mark m2 0 0) =
      some { grid := { counters := { flag_count := 0, revealed_count := 0 }
                       data := [Tile.Hidden Content.Empty UserMarking.None]
                       w := 1, h := 1 }
             mine_count := 0, sol := PartialSolution.new 1 1 0 } :=
  ⟨rfl,
    (switch_mark_triple_cycle
      { grid := { counters := { flag_count := 0, revealed_count := 0 }
                  data := [Tile.Hidden Content.Empty UserMarking.None], w := 1, h := 1 }
        mine_count := 0, sol := PartialSolution.new 1 1 0 } 0 0 rfl
      (fun cont hcon => by cases hcon)).1⟩

/-- C6.  Inside `find_acomodating_solution`, a combination drawn from the
Cartesian product of per-component mine-count keys is retained exactly
when its total fits the remaining hidden-mine budget and the leftover
budget fits the unconstrained free pool (`faSurviving` is the directly
embedded steps 2-3 used by `findAcomodatingSolution`). -/
theorem combination_filter_characterization (cnt : Counters)
    (keyOrders : List (List Nat)) (combs : List (List Nat)) (comb : List Nat)
    (h : faSurviving cnt keyOrders = some combs) :
    comb ∈ combs ↔
      comb ∈ (cartesianProduct keyOrders).getD [] ∧
      comb.sum ≤ cnt.hidden_mines ∧
      cnt.hidden_mines - comb.sum ≤ cnt.unconstrained_cells := by
  unfold faSurviving at h
  cases hc : cartesianProduct keyOrders with
  | none => rw [hc] at h; cases h
  | some l =>
    rw [hc] at h
    have hcombs : combs = l.filter (faCombFilter cnt) := by
      cases h
      rfl
    subst hcombs
    simp only [List.mem_filter, Option.getD_some, faCombFilter, Bool.and_eq_true,
      decide_eq_true_eq]

/-- C6, witness: with budget 2 and one free cell, both keys 1 and 2 of a
single component survive; the key-3 combination is rejected. -/
theorem combination_filter_characterization_witness :
    faSurviving ⟨1, 2⟩ [[1, 2, 3]] = some [[1], [2]] ∧
    (([1] ∈ ([[1], [2]] : List (List Nat))) ↔
      [1] ∈ (cartesianProduct [[1, 2, 3]]).getD [] ∧
      List.sum [1] ≤ (2 : Nat) ∧ (2 : Nat) - List.sum [1] ≤ 1) :=
  ⟨rfl, combination_filter_characterization ⟨1, 2⟩ [[1, 2, 3]] [[1], [2]] [1] rfl⟩

/-- C4.  For a completed `add_clue` on a cell that is neither clue nor
mine: with `s1` the state after the possible initial `ToEmpty` cascade
and `(s2, unknowns, m)` the result of the neighbor scan, (1) `m` is the
number of `Mine` neighbors, (2) every `UnknownUnconstrained` neighbor is
promoted to `UnknownConstrained`, (3) the cell's stored state becomes
`Clue (raw - m)` at the write the scan is followed by, and then via the
breadth-first fixpoint propagation (4) if `raw - m = 0` every collected
open neighbor is forced `Empty` in the final state, while (5) if
`raw - m` equals the number of open neighbors every one of them is
forced `Mine`. -/
theorem add_clue_spec (fuel : Nat) (s s1 s2 s' : PartialSolution)
    (cell : Nat × Nat) (raw : Nat) (unknowns : List (Nat × Nat)) (m : Nat)
    (h : add_clue fuel s cell raw = some s')
    (h1 : addCluePre fuel s cell = some s1)
    (h2 : addClueScan s1 cell = some (s2, unknowns, m)) :
    m = ((neighborsOf s1.grid.w s1.grid.h cell.1 cell.2).filter fun p =>
      decide (s1.grid.get p.1 p.2 = some CellState.Mine)).length ∧
    (∀ p ∈ neighborsOf s1.grid.w s1.grid.h cell.1 cell.2,
      s1.grid.get p.1 p.2 = some CellState.UnknownUnconstrained →
      s2.grid.get p.1 p.2 = some CellState.UnknownConstrained) ∧
    (∀ g3, s2.grid.sset cell.1 cell.2 (CellState.Clue (raw - m)) = some g3 →
      g3.get cell.1 cell.2 = some (CellState.Clue (raw - m))) ∧
    (raw - m = 0 → ∀ p ∈ unknowns, s'.grid.get p.1 p.2 = some CellState.Empty) ∧
    (raw - m ≠ 0 → raw - m = unknowns.length →
      ∀ p ∈ unknowns, s'.grid.get p.1 p.2 = some CellState.Mine) := by
  have h2' := h2
  unfold addClueScan at h2
  rw [Option.map_eq_some'] at h2
  obtain ⟨r, hr, hpack⟩ := h2
  have hs2 : s2 = { s1 with grid := r.1 } := by cases hpack; rfl
  have hunk : unknowns = r.2.1 := by cases hpack; rfl
  have hm : m = r.2.2 := by cases hpack; rfl
  have hkey : (raw - m = 0 → ∀ p ∈ unknowns,
      s'.grid.get p.1 p.2 = some CellState.Empty) ∧
      (raw - m ≠ 0 → raw - m = unknowns.length →
        ∀ p ∈ unknowns, s'.grid.get p.1 p.2 = some CellState.Mine) := by
    unfold add_clue at h
    rw [Option.bind_eq_some] at h
    obtain ⟨sa, hsa, h⟩ := h
    rw [h1] at hsa
    cases hsa
    rw [Option.bind_eq_some] at h
    obtain ⟨rb, hrb, h⟩ := h
    rw [h2'] at hrb
    have hrb2 : rb = (s2, unknowns, m) := by
      cases hrb
      rfl
    subst hrb2
    dsimp only at h
    split at h
    next hraw => cases h
    next hraw =>
      rw [Option.bind_eq_some] at h
      obtain ⟨g3, hset, h⟩ := h
      split at h
      next hne =>
        split at h
        next hz =>
          rw [Option.map_eq_some'] at h
          obtain ⟨g4, hbfu, hfin⟩ := h
          have hgrid : s'.grid = g4 := by cases hfin; rfl
          refine ⟨fun _ p hp => ?_, fun hz2 _ => absurd hz hz2⟩
          rw [hgrid]
          exact breadth_first_update_pending hbfu hp (Or.inl ⟨rfl, rfl⟩)
        next hz =>
          split at h
          next hlen =>
            rw [Option.map_eq_some'] at h
            obtain ⟨g4, hbfu, hfin⟩ := h
            have hgrid : s'.grid = g4 := by cases hfin; rfl
            refine ⟨fun hz2 => absurd hz2 hz, fun _ _ p hp => ?_⟩
            rw [hgrid]
            exact breadth_first_update_pending hbfu hp (Or.inr ⟨rfl, rfl⟩)
          next hlen =>
            exact ⟨fun hz2 => absurd hz2 hz, fun _ hlen2 => absurd hlen2 hlen⟩
      next hne =>
        have hlen0 : unknowns.length = 0 := by omega
        have hempty : unknowns = [] := List.length_eq_zero.mp hlen0
        subst hempty
        exact ⟨fun _ p hp => absurd hp (List.not_mem_nil p),
          fun _ _ p hp => absurd hp (List.not_mem_nil p)⟩
  refine ⟨?_, ?_, ?_, hkey.1, hkey.2⟩
  · rw [hm]
    exact addClueScanGo_mines hr
  · intro p hp hu
    rw [hs2]
    exact ((addClueScanGo_post hr p hp).2 hu)
  · intro g3 hset
    exact Grid.get_set_self hset

/-- C4, witness: revealing clue 1 on a fresh 1×2 board with one mine
(the saturated branch: the lone open neighbor is forced `Mine`). -/
theorem add_clue_spec_witness :
    (add_clue 20 (PartialSolution.new 2 1 1) (0, 0) 1).isSome = true ∧
    ((1 : Nat) - 0 ≠ 0 → (1 : Nat) - 0 = [((0 : Nat), (1 : Nat))].length →
      ∀ p ∈ [((0 : Nat), (1 : Nat))],
        ((add_clue 20 (PartialSolution.new 2 1 1) (0, 0) 1).getD
          (PartialSolution.new 2 1 1)).grid.get p.1 p.2 = some CellState.Mine) := by
  refine ⟨rfl, ?_⟩
  have h := add_clue_spec 20 (PartialSolution.new 2 1 1)
    (PartialSolution.new 2 1 1)
    { grid := { counters := { unconstrained_cells := 1, hidden_mines := 1 }
                data := [CellState.UnknownUnconstrained, CellState.UnknownConstrained]
                w := 2, h := 1 }
      graphs_solutions := [] }
    ((add_clue 20 (PartialSolution.new 2 1 1) (0, 0) 1).getD
      (PartialSolution.new 2 1 1))
    (0, 0) 1 [(0, 1)] 0 rfl rfl rfl
  exact h.2.2.2.2

theorem clueNeighborsOk_of_Jprop {g : SGrid} (hJ : Jprop g) :
    clueNeighborsOk g = true := by
  unfold clueNeighborsOk
  rw [List.all_eq_true]
  intro r hr
  rw [List.all_eq_true]
  intro c hc
  split
  next n heq =>
    rw [List.all_eq_true]
    intro p hp
    simpa using hJ r c n heq p hp
  next => rfl

/-- C5, amended.  In every solver state reachable from a fresh board by
completed `add_clue` and `find_acomodating_solution` calls, no `Clue`
cell has an `UnknownUnconstrained` neighbor (the board-wide decidable
scan `clueNeighborsOk` holds).  The claim's other clause — exactly `n`
Mine-or-open neighbors for a `Clue n` cell — fails on the reachable
state of the counterexample theorem, where a neighbor proven `Mine`
decrements the stored count yet remains a Mine neighbor. -/
theorem reachable_clue_never_unconstrained {s : PartialSolution}
    (h : Reach s) : clueNeighborsOk s.grid = true :=
  clueNeighborsOk_of_Jprop (reach_inv h).1

/-- C5, amended, witness: the fresh 2×2 board with one mine. -/
theorem reachable_clue_never_unconstrained_witness :
    clueNeighborsOk (PartialSolution.new 2 2 1).grid = true :=
  reachable_clue_never_unconstrained (Reach.init 2 2 1)

/-- C7.  In every reachable solver state the `unconstrained_cells`
counter equals the number of `UnknownUnconstrained` grid cells
(`counterMatches`), and the solver-grid write path `sset` = `Grid::set`
first reads the old value, then invokes the change hook
`Counters::notify_change` on the old and the new value, and installs
exactly the hook's resulting counters together with the single cell
write — so the counter is updated only through the hook, before the
write is committed. -/
theorem unconstrained_counter_tracks_free_pool {s : PartialSolution}
    (h : Reach s) :
    counterMatches s.grid ∧
    ∀ (g g1 : SGrid) (r c : Nat) (v : CellState), g.sset r c v = some g1 →
      ∃ old, g.get r c = some old ∧
        Counters.notify_change g.counters old v = some g1.counters ∧
        g1.data = g.data.set (r * g.w + c) v := by
  refine ⟨(reach_inv h).2, ?_⟩
  intro g g1 r c v hset
  unfold SGrid.sset Grid.set at hset
  obtain ⟨old, hold, hmap⟩ := Option.bind_eq_some.mp hset
  obtain ⟨cnt, hcnt, heq⟩ := Option.map_eq_some'.mp hmap
  subst heq
  exact ⟨old, hold, hcnt, rfl⟩

/-- C7, witness: the fresh 3×2 board with four mines. -/
theorem unconstrained_counter_tracks_free_pool_witness :
    counterMatches (PartialSolution.new 3 2 4).grid :=
  (unconstrained_counter_tracks_free_pool (Reach.init 3 2 4)).1

/-! ## The component search (claim C3): helper lemmas -/

theorem filter_len_mono {α : Type} : ∀ (l : List α) (p q : α → Bool),
    (∀ a ∈ l, p a = true → q a = true) →
    (l.filter p).length ≤ (l.filter q).length := by
  intro l
  induction l with
  | nil => intro p q h; exact Nat.le_refl 0
  | cons a tl ih =>
    intro p q h
    have iht := ih p q fun b hb hpb => h b (List.mem_cons_of_mem a hb) hpb
    cases hpa : p a
    · cases hqa : q a
      · simpa [List.filter_cons, hpa, hqa] using iht
      · simp [List.filter_cons, hpa, hqa]
        omega
    · cases hqa : q a
      · have hq := h a (List.mem_cons_self a tl) hpa
        rw [hqa] at hq
        cases hq
      · simp [List.filter_cons, hpa, hqa]
        omega

theorem filter_or_le {α : Type} : ∀ (l : List α) (q r : α → Bool),
    (l.filter fun a => q a || r a).length ≤
      (l.filter q).length + (l.filter r).length := by
  intro l
  induction l with
  | nil => intro q r; exact Nat.le_refl 0
  | cons a tl ih =>
    intro q r
    have iht := ih q r
    cases hqa : q a <;> cases hra : r a <;>
      simp [List.filter_cons, hqa, hra] <;> omega

theorem filter_len_le_add {α : Type} (l : List α) (p q r : α → Bool)
    (h : ∀ a ∈ l, p a = true → q a = true ∨ r a = true) :
    (l.filter p).length ≤ (l.filter q).length + (l.filter r).length :=
  Nat.le_trans
    (filter_len_mono l p (fun a => q a || r a)
      (fun a ha hpa => by
        dsimp only
        rcases h a ha hpa with hqa | hra
        · rw [hqa, Bool.true_or]
        · rw [hra, Bool.or_true]))
    (filter_or_le l q r)

theorem exists_max_mem : ∀ (l : List Nat), l ≠ [] → ∃ k, k ∈ l ∧ ∀ i ∈ l, i ≤ k := by
  intro l
  induction l with
  | nil => intro h; exact absurd rfl h
  | cons a t ih =>
    intro _
    cases t with
    | nil =>
      refine ⟨a, List.mem_singleton.mpr rfl, ?_⟩
      intro i hi
      rw [List.mem_singleton] at hi
      omega
    | cons b t2 =>
      obtain ⟨k, hk, hmax⟩ := ih (by simp)
      rcases Nat.le_total a k with hak | hka
      · refine ⟨k, List.mem_cons_of_mem a hk, ?_⟩
        intro i hi
        rcases List.mem_cons.mp hi with h | h
        · omega
        · exact hmax i h
      · refine ⟨a, List.mem_cons_self a _, ?_⟩
        intro i hi
        rcases List.mem_cons.mp hi with h | h
        · omega
        · exact Nat.le_trans (hmax i h) hka

theorem replicate_getD (n u : Nat) :
    (List.replicate n ([] : List Nat)).getD u [] = [] := by
  rcases Nat.lt_or_ge u n with h | h
  · rw [List.getD_eq_get?, List.get?_eq_get (by simpa using h)]
    simp
  · rw [List.getD_eq_get?, List.get?_eq_none.mpr (by simpa using h)]
    rfl

theorem u2cInsert_length (l : List (List Nat)) (u ci : Nat) :
    (u2cInsert l u ci).length = l.length := by
  unfold u2cInsert
  exact List.length_set l u _

theorem u2cInsert_getD_self {l : List (List Nat)} {u : Nat} (ci : Nat)
    (h : u < l.length) :
    (u2cInsert l u ci).getD u [] = l.getD u [] ++ [ci] := by
  unfold u2cInsert
  rw [List.getD_eq_get?, List.get?_set_eq_of_lt _ h]
  rfl

theorem u2cInsert_getD_ne {l : List (List Nat)} {u v : Nat} (ci : Nat)
    (h : u ≠ v) : (u2cInsert l u ci).getD v [] = l.getD v [] := by
  unfold u2cInsert
  rw [List.getD_eq_get?, List.get?_set_ne _ _ h, ← List.getD_eq_get?]

theorem u2cInsert_mem {l : List (List Nat)} {v x : Nat} (u ci : Nat)
    (h : x ∈ l.getD v []) : x ∈ (u2cInsert l u ci).getD v [] := by
  by_cases huv : u = v
  · subst huv
    by_cases hlen : u < l.length
    · rw [u2cInsert_getD_self ci hlen]
      exact List.mem_append_left _ h
    · unfold u2cInsert
      rw [List.set_eq_of_length_le (Nat.le_of_not_lt hlen)]
      exact h
  · rw [u2cInsert_getD_ne ci huv]
    exact h

theorem innerFold_length (adj : List Nat) (ci : Nat) :
    ∀ acc : List (List Nat),
      (adj.foldl (fun a u => u2cInsert a u ci) acc).length = acc.length := by
  induction adj with
  | nil => intro acc; rfl
  | cons u rest ih =>
    intro acc
    rw [List.foldl_cons, ih, u2cInsert_length]

theorem innerFold_mem (adj : List Nat) (ci : Nat) :
    ∀ (acc : List (List Nat)) (v x : Nat), x ∈ acc.getD v [] →
      x ∈ (adj.foldl (fun a u => u2cInsert a u ci) acc).getD v [] := by
  induction adj with
  | nil => intro acc v x h; exact h
  | cons u rest ih =>
    intro acc v x h
    rw [List.foldl_cons]
    exact ih _ v x (u2cInsert_mem u ci h)

theorem innerFold_adds (adj : List Nat) (ci : Nat) :
    ∀ (acc : List (List Nat)) (u : Nat), u ∈ adj → u < acc.length →
      ci ∈ (adj.foldl (fun a u => u2cInsert a u ci) acc).getD u [] := by
  induction adj with
  | nil => intro acc u h; cases h
  | cons v rest ih =>
    intro acc u hu hlen
    rw [List.foldl_cons]
    rcases List.mem_cons.mp hu with rfl | h
    · refine innerFold_mem rest ci _ u ci ?_
      rw [u2cInsert_getD_self ci hlen]
      exact List.mem_append_right _ (List.mem_singleton.mpr rfl)
    · refine ih _ u h ?_
      rw [u2cInsert_length]
      exact hlen

theorem innerFold_rev (adj : List Nat) (ci : Nat) :
    ∀ (acc : List (List Nat)) (v x : Nat),
      x ∈ (adj.foldl (fun a u => u2cInsert a u ci) acc).getD v [] →
      x ∈ acc.getD v [] ∨ (x = ci ∧ v ∈ adj) := by
  induction adj with
  | nil => intro acc v x h; exact Or.inl h
  | cons u rest ih =>
    intro acc v x h
    rw [List.foldl_cons] at h
    rcases ih (u2cInsert acc u ci) v x h with h2 | h2
    · by_cases huv : u = v
      · subst huv
        by_cases hlen : u < acc.length
        · rw [u2cInsert_getD_self ci hlen] at h2
          rcases List.mem_append.mp h2 with h3 | h3
          · exact Or.inl h3
          · exact Or.inr ⟨List.mem_singleton.mp h3, List.mem_cons_self u rest⟩
        · unfold u2cInsert at h2
          rw [List.set_eq_of_length_le (Nat.le_of_not_lt hlen)] at h2
          exact Or.inl h2
      · rw [u2cInsert_getD_ne ci huv] at h2
        exact Or.inl h2
    · exact Or.inr ⟨h2.1, List.mem_cons_of_mem u h2.2⟩

theorem outerFold_length (pairs : List (Nat × SClue)) :
    ∀ acc : List (List Nat),
      (pairs.foldl
        (fun acc p => p.2.adjacency.foldl (fun a u => u2cInsert a u p.1) acc)
        acc).length = acc.length := by
  induction pairs with
  | nil => intro acc; rfl
  | cons p rest ih =>
    intro acc
    rw [List.foldl_cons, ih, innerFold_length]

theorem outerFold_mem (pairs : List (Nat × SClue)) :
    ∀ (acc : List (List Nat)) (v x : Nat), x ∈ acc.getD v [] →
      x ∈ (pairs.foldl
        (fun acc p => p.2.adjacency.foldl (fun a u => u2cInsert a u p.1) acc)
        acc).getD v [] := by
  induction pairs with
  | nil => intro acc v x h; exact h
  | cons p rest ih =>
    intro acc v x h
    rw [List.foldl_cons]
    exact ih _ v x (innerFold_mem p.2.adjacency p.1 acc v x h)

theorem outerFold_adds (pairs : List (Nat × SClue)) :
    ∀ (acc : List (List Nat)) (ci : Nat) (c : SClue) (u : Nat),
      (ci, c) ∈ pairs → u ∈ c.adjacency → u < acc.length →
      ci ∈ (pairs.foldl
        (fun acc p => p.2.adjacency.foldl (fun a u => u2cInsert a u p.1) acc)
        acc).getD u [] := by
  induction pairs with
  | nil => intro acc ci c u h; cases h
  | cons p rest ih =>
    intro acc ci c u hmem hu hlen
    rw [List.foldl_cons]
    rcases List.mem_cons.mp hmem with rfl | h
    · exact outerFold_mem rest _ u ci (innerFold_adds c.adjacency ci acc u hu hlen)
    · refine ih _ ci c u h hu ?_
      rw [innerFold_length]
      exact hlen

theorem outerFold_rev (pairs : List (Nat × SClue)) :
    ∀ (acc : List (List Nat)) (v x : Nat),
      x ∈ (pairs.foldl
        (fun acc p => p.2.adjacency.foldl (fun a u => u2cInsert a u p.1) acc)
        acc).getD v [] →
      x ∈ acc.getD v [] ∨ ∃ c, (x, c) ∈ pairs ∧ v ∈ c.adjacency := by
  induction pairs with
  | nil => intro acc v x h; exact Or.inl h
  | cons p rest ih =>
    intro acc v x h
    rw [List.foldl_cons] at h
    rcases ih _ v x h with h2 | h2
    · rcases innerFold_rev p.2.adjacency p.1 acc v x h2 with h3 | h3
      · exact Or.inl h3
      · refine Or.inr ⟨p.2, ?_, h3.2⟩
        rw [h3.1, Prod.mk.eta]
        exact List.mem_cons_self p rest
    · obtain ⟨c, hc, hv⟩ := h2
      exact Or.inr ⟨c, List.mem_cons_of_mem p hc, hv⟩

theorem mem_unknownsToClues {t : Topology} {ci : Nat} {c : SClue} {u : Nat}
    (hci : t.clues.get? ci = some c) (hu : u ∈ c.adjacency)
    (hrange : u < t.unknown_count) :
    ci ∈ (unknownsToClues t).getD u [] := by
  unfold unknownsToClues
  refine outerFold_adds t.clues.enum _ ci c u (List.mem_enum_iff_get?.mpr hci) hu ?_
  rw [List.length_replicate]
  exact hrange

theorem mem_unknownsToClues_rev {t : Topology} {u ci : Nat}
    (h : ci ∈ (unknownsToClues t).getD u []) :
    ∃ c, t.clues.get? ci = some c ∧ u ∈ c.adjacency := by
  unfold unknownsToClues at h
  rcases outerFold_rev t.clues.enum _ u ci h with h2 | h2
  · rw [replicate_getD] at h2
    cases h2
  · obtain ⟨c, hc, hu⟩ := h2
    exact ⟨c, List.mem_enum_iff_get?.mp hc, hu⟩

theorem getD_take {x : List Bool} {i m : Nat} (h : i < m) :
    (x.take m).getD i false = x.getD i false := by
  rw [List.getD_eq_get?, List.getD_eq_get?, List.get?_take h]

theorem minesAssigned_take {x : List Bool} {adj : List Nat} {m : Nat}
    (h : ∀ i ∈ adj, i < m) :
    minesAssigned (x.take m) adj = minesAssigned x adj := by
  unfold minesAssigned
  exact congrArg List.length (List.filter_congr fun i hi => by rw [getD_take (h i hi)])

theorem unassignedCount_zero {x : List Bool} {adj : List Nat}
    (h : ∀ i ∈ adj, i < x.length) : unassignedCount x adj = 0 := by
  unfold unassignedCount
  rw [List.filter_eq_nil.mpr]
  · rfl
  · intro i hi
    simpa using Nat.not_le.mpr (h i hi)

theorem completions_satisfies {t : Topology} {x : List Bool}
    (hadj : ∀ c ∈ t.clues, ∀ i ∈ c.adjacency, i < t.unknown_count)
    (hemp : ∀ c ∈ t.clues, c.adjacency = [] → c.mine_count = 0)
    (hlen : x.length = t.unknown_count)
    (hchk : checkedPath t (unknownsToClues t) x 0) :
    satisfiesAll t x = true := by
  unfold satisfiesAll
  rw [List.all_eq_true]
  intro c hc
  rw [decide_eq_true_eq]
  by_cases hne : c.adjacency = []
  · rw [hne, hemp c hc hne]
    rfl
  · obtain ⟨k, hk, hkmax⟩ := exists_max_mem c.adjacency hne
    obtain ⟨ci, hci⟩ := List.get?_of_mem hc
    have hkn : k < t.unknown_count := hadj c hc k hk
    have hcheck := hchk k (Nat.zero_le k) (by omega)
    unfold isLastPossible at hcheck
    rw [List.all_eq_true] at hcheck
    have hok := hcheck ci (mem_unknownsToClues hci hk hkn)
    have hgetD : t.clues.getD ci ⟨0, []⟩ = c := by
      rw [List.getD_eq_get?, hci]
      rfl
    rw [hgetD] at hok
    unfold clueOk at hok
    rw [Bool.and_eq_true, decide_eq_true_eq, decide_eq_true_eq] at hok
    obtain ⟨hok1, hok2⟩ := hok
    have hcov2 : ∀ i ∈ c.adjacency, i < k + 1 :=
      fun i hi => Nat.lt_succ_of_le (hkmax i hi)
    have hcov : ∀ i ∈ c.adjacency, i < (x.take (k + 1)).length := by
      intro i hi
      rw [List.length_take_of_le (by omega)]
      exact hcov2 i hi
    have hzero := unassignedCount_zero hcov
    rw [← minesAssigned_take hcov2]
    omega

theorem satisfies_checkedPath {t : Topology} {x : List Bool}
    (hlen : x.length = t.unknown_count)
    (hsat : satisfiesAll t x = true) :
    checkedPath t (unknownsToClues t) x 0 := by
  intro k _ hkx
  unfold isLastPossible
  rw [List.all_eq_true]
  intro ci hci
  obtain ⟨c, hget, hk⟩ := mem_unknownsToClues_rev hci
  have hgetD : t.clues.getD ci ⟨0, []⟩ = c := by
    rw [List.getD_eq_get?, hget]
    rfl
  rw [hgetD]
  unfold clueOk
  rw [Bool.and_eq_true, decide_eq_true_eq, decide_eq_true_eq]
  have hcm : c ∈ t.clues := List.get?_mem hget
  have hmc : minesAssigned x c.adjacency = c.mine_count := by
    unfold satisfiesAll at hsat
    rw [List.all_eq_true] at hsat
    exact decide_eq_true_eq.mp (hsat c hcm)
  have hplen : (x.take (k + 1)).length = k + 1 := List.length_take_of_le (by omega)
  constructor
  · rw [← hmc]
    unfold minesAssigned
    refine filter_len_mono _ _ _ ?_
    intro i hi hpi
    by_cases him : i < k + 1
    · rw [getD_take him] at hpi
      exact hpi
    · rw [List.getD_eq_get?, List.get?_eq_none.mpr (by rw [hplen]; omega)] at hpi
      simp at hpi
  · rw [← hmc]
    unfold minesAssigned unassignedCount
    refine filter_len_le_add _ _ _ _ ?_
    intro i hi hpi
    by_cases him : i < k + 1
    · left
      rw [getD_take him]
      exact hpi
    · right
      rw [decide_eq_true_eq, hplen]
      omega

theorem mem_searchChildren {t : Topology} {u2c : List (List Nat)}
    {sol s : List Bool} :
    s ∈ searchChildren t u2c sol ↔
      ∃ b, s = sol ++ [b] ∧
        isLastPossible t (u2c.getD sol.length []) (sol ++ [b]) = true := by
  unfold searchChildren
  constructor
  · intro h
    rcases List.mem_append.mp h with h2 | h2
    · split at h2
      next hc =>
        rw [List.mem_singleton] at h2
        exact ⟨false, h2, hc⟩
      next => cases h2
    · split at h2
      next hc =>
        rw [List.mem_singleton] at h2
        exact ⟨true, h2, hc⟩
      next => cases h2
  · rintro ⟨b, rfl, hc⟩
    cases b
    · apply List.mem_append_left
      rw [if_pos hc]
      exact List.mem_singleton.mpr rfl
    · apply List.mem_append_right
      rw [if_pos hc]
      exact List.mem_singleton.mpr rfl

theorem split_norm {n : Nat} {q q1 q2 : List (List Bool)} {L : Nat}
    (hq : q = q1 ++ q2) (h1 : ∀ s ∈ q1, s.length = L)
    (h2 : ∀ s ∈ q2, s.length = L + 1)
    (hL : L ≤ n) (hq2 : q2 = [] ∨ L + 1 ≤ n) (hne : q ≠ []) :
    ∃ M p1 p2, q = p1 ++ p2 ∧ p1 ≠ [] ∧ (∀ s ∈ p1, s.length = M) ∧
      (∀ s ∈ p2, s.length = M + 1) ∧ M ≤ n ∧ (p2 = [] ∨ M + 1 ≤ n) := by
  cases q1 with
  | nil =>
    rcases hq2 with hq2 | hq2
    · exact absurd (by rw [hq, hq2]; rfl) hne
    · refine ⟨L + 1, q2, [], ?_, ?_, h2, (by intro s hs; cases hs), hq2, Or.inl rfl⟩
      · rw [List.append_nil]
        exact hq.trans (List.nil_append q2)
      · intro hq2nil
        exact hne (by rw [hq, hq2nil]; rfl)
  | cons s0 q1t =>
    exact ⟨L, s0 :: q1t, q2, hq, List.cons_ne_nil s0 q1t, h1, h2, hL, hq2⟩

theorem findSolutionsLoop_completions (t : Topology) (u2c : List (List Nat)) :
    ∀ (fuel : Nat) (q res : List (List Bool)) (L : Nat) (q1 q2 : List (List Bool)),
      q = q1 ++ q2 →
      (∀ s ∈ q1, s.length = L) →
      (∀ s ∈ q2, s.length = L + 1) →
      L ≤ t.unknown_count →
      (q2 = [] ∨ L + 1 ≤ t.unknown_count) →
      findSolutionsLoop t u2c fuel q = some res →
      ∀ x : List Bool, x ∈ res ↔ ∃ s ∈ q, Completions t u2c s x := by
  intro fuel
  induction fuel with
  | zero => intro q res L q1 q2 _ _ _ _ _ hloop; cases hloop
  | succ fuel ih =>
    intro q res L q1 q2 hq h1 h2 hL hq2 hloop x
    cases q with
    | nil =>
      simp only [findSolutionsLoop] at hloop
      injection hloop with hres
      subst hres
      simp
    | cons sol rest =>
      obtain ⟨M, p1, p2, hqp, hp1ne, hb1, hb2, hM, hp2⟩ :=
        split_norm hq h1 h2 hL hq2 (List.cons_ne_nil sol rest)
      cases p1 with
      | nil => exact absurd rfl hp1ne
      | cons s0 p1t =>
        rw [List.cons_append] at hqp
        injection hqp with hsol hrest
        subst hsol
        have hsolM : sol.length = M := hb1 sol (List.mem_cons_self sol p1t)
        simp only [findSolutionsLoop] at hloop
        split at hloop
        next hcomplete =>
          injection hloop with hres
          subst hres
          have hMn : M = t.unknown_count := by omega
          have hp2nil : p2 = [] := by
            rcases hp2 with h | h
            · exact h
            · exact absurd h (by omega)
          have hall : ∀ s ∈ sol :: rest, s.length = t.unknown_count := by
            intro s hs
            rw [hrest, hp2nil, List.append_nil] at hs
            rw [hb1 s hs, hMn]
          constructor
          · intro hx
            exact ⟨x, hx, hall x hx, by rw [List.take_length],
              fun k hk hkx => absurd hkx (Nat.not_lt.mpr hk)⟩
          · rintro ⟨s, hs, hxlen, htake, hchk⟩
            have hxs : x = s := by
              rw [← htake, hall s hs, ← hxlen, List.take_length]
            rw [hxs]
            exact hs
        next hincomplete =>
          have hMlt : M < t.unknown_count := by omega
          have hiff := ih (rest ++ searchChildren t u2c sol) res M p1t
            (p2 ++ searchChildren t u2c sol)
            (by rw [hrest, List.append_assoc])
            (fun s hs => hb1 s (List.mem_cons_of_mem sol hs))
            (by
              intro s hs
              rcases List.mem_append.mp hs with h | h
              · exact hb2 s h
              · obtain ⟨b, rfl, _⟩ := mem_searchChildren.mp h
                rw [List.length_append, hsolM]
                rfl)
            (Nat.le_of_lt hMlt)
            (Or.inr (by omega))
            hloop x
          rw [hiff]
          constructor
          · rintro ⟨s, hs, hc⟩
            rcases List.mem_append.mp hs with h | h
            · exact ⟨s, List.mem_cons_of_mem sol h, hc⟩
            · obtain ⟨b, rfl, hchk2⟩ := mem_searchChildren.mp h
              obtain ⟨hxlen, htake, hck⟩ := hc
              refine ⟨sol, List.mem_cons_self sol rest, hxlen, ?_, ?_⟩
              · have h3 : (x.take (sol ++ [b]).length).take sol.length =
                    x.take sol.length := by
                  rw [List.take_take]
                  congr 1
                  rw [List.length_append]
                  omega
                rw [← h3, htake]
                exact List.take_left sol [b]
              · intro k hk hkx
                by_cases hkeq : k = sol.length
                · subst hkeq
                  have htk : x.take (sol.length + 1) = sol ++ [b] := by
                    rw [← htake]
                    congr 1
                    rw [List.length_append]
                    rfl
                  rw [htk]
                  exact hchk2
                · refine hck k ?_ hkx
                  rw [List.length_append]
                  show sol.length + 1 ≤ k
                  omega
          · rintro ⟨s, hs, hc⟩
            rcases List.mem_cons.mp hs with h | h
            · rw [h] at hc
              obtain ⟨hxlen, htake, hck⟩ := hc
              have hsl : sol.length < x.length := by omega
              have hb : x.get? sol.length = some (x.get ⟨sol.length, hsl⟩) :=
                List.get?_eq_get hsl
              have htk1 : x.take (sol.length + 1) =
                  sol ++ [x.get ⟨sol.length, hsl⟩] := by
                rw [List.take_succ, ← List.get?_eq_getElem?, hb, htake]
                rfl
              have hchild : isLastPossible t (u2c.getD sol.length [])
                  (sol ++ [x.get ⟨sol.length, hsl⟩]) = true := by
                rw [← htk1]
                exact hck sol.length (Nat.le_refl _) hsl
              refine ⟨sol ++ [x.get ⟨sol.length, hsl⟩],
                List.mem_append_right rest
                  (mem_searchChildren.mpr ⟨_, rfl, hchild⟩),
                hxlen, ?_, ?_⟩
              · rw [List.length_append]
                exact htk1
              · intro k hk hkx
                refine hck k ?_ hkx
                have hk2 : sol.length + 1 ≤ k := by
                  rw [List.length_append] at hk
                  exact hk
                omega
            · exact ⟨s, List.mem_append_left _ h, hc⟩

/-- C3, amended.  On every topology in which each clue's adjacency
indices lie below `unknown_count` and each clue with an empty adjacency
list owes zero mines, a completed `find_solutions` call returns exactly
the assignments of length `unknown_count` that satisfy every clue
exactly.  (On other topologies the claim fails: the counterexample
theorem exhibits a clue that is never checked because it has no
adjacent unknown.) -/
theorem find_solutions_exact (fuel : Nat) (t : Topology)
    (res : List (List Bool)) (x : List Bool)
    (hadj : ∀ c ∈ t.clues, ∀ i ∈ c.adjacency, i < t.unknown_count)
    (hemp : ∀ c ∈ t.clues, c.adjacency = [] → c.mine_count = 0)
    (hres : find_solutions fuel t = some res) :
    x ∈ res ↔ (x.length = t.unknown_count ∧ satisfiesAll t x = true) := by
  unfold find_solutions at hres
  have hiff := findSolutionsLoop_completions t (unknownsToClues t) fuel [[]] res
    0 [[]] [] rfl
    (by
      intro s hs
      rw [List.mem_singleton] at hs
      rw [hs]
      rfl)
    (by intro s hs; cases hs) (Nat.zero_le _) (Or.inl rfl) hres x
  rw [hiff]
  constructor
  · rintro ⟨s, hs, hc⟩
    rw [List.mem_singleton] at hs
    subst hs
    obtain ⟨hxlen, _, hchk⟩ := hc
    exact ⟨hxlen, completions_satisfies hadj hemp hxlen hchk⟩
  · rintro ⟨hxlen, hsat⟩
    exact ⟨[], List.mem_singleton.mpr rfl, hxlen, rfl,
      satisfies_checkedPath hxlen hsat⟩

/-- C3, amended, witness: the 2-unknown topology with one clue owing one
mine over both unknowns; the returned set is the two exact solutions. -/
theorem find_solutions_exact_witness :
    ([false, true] : List Bool).length =
        (⟨2, [⟨1, [0, 1]⟩]⟩ : Topology).unknown_count ∧
    satisfiesAll ⟨2, [⟨1, [0, 1]⟩]⟩ [false, true] = true :=
  (find_solutions_exact 50 ⟨2, [⟨1, [0, 1]⟩]⟩ [[false, true], [true, false]]
    [false, true] (by decide) (by decide) (by decide)).mp (by decide)

end Mineswapper
